import Mathlib

/-!
Verification development for the `Document` text-buffer model (document.js).

The data model and operations below are shallow embeddings of document.js.
JS strings are modelled as `List Char`, the `$lines` array as `List Line`,
and the synchronous `_signal` notifications as an explicit list of events
returned by each operation.  The external collaborators that document.js
imports but that are not part of this repository's sources (the line-splice
primitive of apply_delta.js, the `Range` comparator, the event emitter) are
modelled from the spec; each such definition is marked in its doc comment.

In-place mutation of a caller's delta object (which the chunking path of
`applyDelta` performs) is modelled by returning the value the caller's
object holds after the call, in the `delta` field of `ApplyResult`.
-/

set_option maxHeartbeats 1000000

namespace Ace

/-- A JS string, modelled as its list of characters. -/
abbrev Line := List Char

/-- A zero-based `{row, column}` point (document.js positions). -/
structure Pos where
  row : Nat
  column : Nat
deriving DecidableEq

/-- The `action` field of a delta. -/
inductive DeltaAction where
  | insert
  | remove
deriving DecidableEq

/-- A delta descriptor `\x7bstart, end, action, lines\x7d` of document.js.
`end` is a Lean keyword, so that field is called `stop`. -/
structure Delta where
  start : Pos
  stop : Pos
  action : DeltaAction
  lines : List Line
deriving DecidableEq

/-- The newline mode: `windows`, `unix` or `auto`. -/
inductive NewLineMode where
  | windows
  | unix
  | auto
deriving DecidableEq

/-- A notification delivered synchronously through the event emitter
(`_signal`): a `"change"` event carrying the applied delta, or a
`"changeNewLineMode"` event. -/
inductive Event where
  | change (delta : Delta)
  | changeNewLineMode
deriving DecidableEq

/-- The state of a `Document`: the `$lines` array, the detected
`$autoNewLine` and the `$newLineMode` (class-level defaults `""` and
`"auto"`). -/
structure Document where
  lines : List Line
  autoNewLine : Line
  newLineMode : NewLineMode
deriving DecidableEq

/-- Modelled from the spec: the external `Range.comparePoints`, the total
row-then-column comparator (`p1.row - p2.row || p1.column - p2.column`);
range.js is not among this repository's sources. -/
def comparePoints (p1 p2 : Pos) : Int :=
  if (p1.row : Int) - p2.row ≠ 0 then (p1.row : Int) - p2.row
  else (p1.column : Int) - p2.column

/-- Modelled from the spec: the insert arm of the external line-splice
primitive (apply_delta.js is not among this repository's sources).  At
`(row, startColumn)` the addressed line is split; a one-line delta is
spliced into that line, a multi-line delta replaces the row by its lines
with the first and last merged into the two halves of the split line.
Faithful for `lines ≠ []`: the orchestrator's no-op guard keeps empty line
arrays away from the splice.  The primitive's validation (skippable via
`doNotValidate`) is not modelled; every delta reaching the splice in this
development is already valid. -/
def insLines (docLines : List Line) (row startColumn : Nat) (lines : List Line) : List Line :=
  let line := docLines.getD row []
  if lines.length = 1 then
    docLines.set row (line.take startColumn ++ lines.getD 0 [] ++ line.drop startColumn)
  else
    docLines.take row
      ++ [line.take startColumn ++ lines.headI]
      ++ (lines.drop 1).dropLast
      ++ [lines.getLastD [] ++ line.drop startColumn]
      ++ docLines.drop (row + 1)

/-- Modelled from the spec: the remove arm of the external line-splice
primitive.  A same-row removal deletes the columns `[startColumn, endColumn)`
of the addressed line; a multi-row removal replaces rows `row .. endRow` by
the single merged line `line.take startColumn ++ lastLine.drop endColumn`. -/
def remLines (docLines : List Line) (row startColumn endRow endColumn : Nat) : List Line :=
  let line := docLines.getD row []
  if row = endRow then
    docLines.set row (line.take startColumn ++ line.drop endColumn)
  else
    docLines.take row
      ++ [line.take startColumn ++ (docLines.getD endRow []).drop endColumn]
      ++ docLines.drop (endRow + 1)

/-- Modelled from the spec: the external line-splice primitive of
apply_delta.js, dispatching on the delta's action. -/
def spliceLines (docLines : List Line) (delta : Delta) : List Line :=
  match delta.action with
  | DeltaAction.insert => insLines docLines delta.start.row delta.start.column delta.lines
  | DeltaAction.remove =>
      remLines docLines delta.start.row delta.start.column delta.stop.row delta.stop.column

/-- Result of a delta application: the new document, the events emitted
during the call, and the value the caller's delta object holds afterwards
(deltas are JS objects passed by reference, and the chunking path mutates
its argument in place). -/
structure ApplyResult where
  doc : Document
  events : List Event
  delta : Delta
deriving DecidableEq

/-- Result of a public mutation call: its return value, the new document
and the emitted events. -/
structure OpResult (α : Type) where
  val : α
  doc : Document
  events : List Event

/-- `getLength()`: the number of rows. -/
def Document.getLength (doc : Document) : Nat := doc.lines.length

/-- `getLine(row)`: the line at `row`, or `""` when out of range
(`this.$lines[row] || ""`). -/
def Document.getLine (doc : Document) (row : Nat) : Line := doc.lines.getD row []

/-- `getLines(firstRow, lastRow)`: `this.$lines.slice(firstRow, lastRow + 1)`. -/
def Document.getLines (doc : Document) (firstRow lastRow : Nat) : List Line :=
  (doc.lines.drop firstRow).take (lastRow + 1 - firstRow)

/-- `getAllLines()`: `getLines(0, getLength())`. -/
def Document.getAllLines (doc : Document) : List Line :=
  doc.getLines 0 doc.getLength

/-- `getNewLineCharacter()`: `"\r\n"` for windows mode, `"\n"` for unix
mode, otherwise `this.$autoNewLine || "\n"`. -/
def Document.getNewLineCharacter (doc : Document) : Line :=
  match doc.newLineMode with
  | NewLineMode.windows => ['\r', '\n']
  | NewLineMode.unix => ['\n']
  | NewLineMode.auto => if doc.autoNewLine = [] then ['\n'] else doc.autoNewLine

/-- `getValue()`: all lines joined by the current newline character. -/
def Document.getValue (doc : Document) : Line :=
  List.intercalate doc.getNewLineCharacter doc.getAllLines

/-- JS `String.prototype.substring(a, b)`: clamps both indices to the
string and swaps them when `a > b`. -/
def jsSubstring (s : Line) (a b : Nat) : Line :=
  (s.take (max a b)).drop (min a b)

/-- `clippedPos(row, column)` for defined non-negative arguments (rows and
columns are naturals here, so the `row < 0` and `undefined` branches of the
source collapse): a row at or past the end becomes the last row with the
column forced to that line's length; otherwise the column is clamped to
`[0, lineLength]`. -/
def Document.clippedPos (doc : Document) (row column : Nat) : Pos :=
  let length := doc.getLength
  if length ≤ row then
    ⟨length - 1, (doc.getLine (length - 1)).length⟩
  else
    ⟨row, min (max column 0) (doc.getLine row).length⟩

/-- `clonePos(pos)`: a fresh point with the same row and column. -/
def Document.clonePos (p : Pos) : Pos := ⟨p.row, p.column⟩

/-- `pos(row, column)`. -/
def Document.pos (row column : Nat) : Pos := ⟨row, column⟩

/-- `getLinesForRange(range)`: a same-row range yields the single
substring; a multi-row range yields the inclusive row slice with the first
line cut at `start.column` and the last line cut at `end.column` only when
the range's row span equals the produced-lines count minus one. -/
def Document.getLinesForRange (doc : Document) (start stop : Pos) : List Line :=
  if start.row = stop.row then
    [jsSubstring (doc.getLine start.row) start.column stop.column]
  else
    let lines0 := doc.getLines start.row stop.row
    let lines1 := ((lines0.getD 0 []).drop start.column) :: lines0.drop 1
    let last := lines1.length - 1
    if (stop.row : Int) - start.row = (last : Int) then
      lines1.set last ((lines1.getD last []).take stop.column)
    else lines1

/-- `getTextRange(range)`: the range's lines joined by the newline
character. -/
def Document.getTextRange (doc : Document) (start stop : Pos) : Line :=
  List.intercalate doc.getNewLineCharacter (doc.getLinesForRange start stop)

/-- The group captured by `$detectNewLine`'s regex `^.*?(\r\n|\r|\n)` (with
the multiline flag, `.` matching neither `\r` nor `\n`): the first newline
sequence of the text — `\r\n` when a `\r` is directly followed by `\n`,
otherwise the single terminator — defaulting to `"\n"` when there is
none. -/
def firstNewLine : Line → Line
  | [] => ['\n']
  | c :: rest =>
    if c = '\r' then (if rest.head? = some '\n' then ['\r', '\n'] else ['\r'])
    else if c = '\n' then ['\n']
    else firstNewLine rest

/-- `$detectNewLine(text)`: stores the first newline sequence of `text` in
`$autoNewLine` and signals `"changeNewLineMode"`. -/
def Document.detectNewLine (doc : Document) (text : Line) : Document × List Event :=
  ({ doc with autoNewLine := firstNewLine text }, [Event.changeNewLineMode])

/-- `$split(text)`: `text.split(/\r\n|\r|\n/)` — cut at every `\n`, `\r`
or `\r\n` (a `\r` directly followed by `\n` is one separator), any other
character extending the current segment. -/
def Document.split (text : Line) : List Line :=
  match text with
  | [] => [[]]
  | c :: rest =>
    if c = '\r' then
      (if rest.head? = some '\n' then [] :: Document.split rest.tail
       else [] :: Document.split rest)
    else if c = '\n' then [] :: Document.split rest
    else
      match Document.split rest with
      | [] => [[c]]
      | l :: ls => (c :: l) :: ls
termination_by text.length
decreasing_by
  · simp [List.length_tail]
    omega
  · simp
  · simp
  · simp

/-- `isNewLine(text)`. -/
def Document.isNewLine (text : Line) : Bool :=
  text = ['\r', '\n'] || text = ['\r'] || text = ['\n']

/-- The body of `applyDelta` without the oversized-insert branch: the no-op
guard, then the splice followed by the synchronous `"change"` signal.  The
chunking loop and its final tail application re-enter `applyDelta` with at
most 20000 lines, where `applyDelta` agrees with this function. -/
def Document.applyDeltaNoChunk (doc : Document) (delta : Delta) : ApplyResult :=
  match delta.action with
  | DeltaAction.insert =>
    if delta.lines.length ≤ 1 ∧ delta.lines.getD 0 [] = [] then ⟨doc, [], delta⟩
    else ⟨{ doc with lines := spliceLines doc.lines delta }, [Event.change delta], delta⟩
  | DeltaAction.remove =>
    if comparePoints delta.start delta.stop = 0 then ⟨doc, [], delta⟩
    else ⟨{ doc with lines := spliceLines doc.lines delta }, [Event.change delta], delta⟩

/-- The loop of `$splitAndapplyLargeDelta`: starting at window offset
`from_`, while `from_ < l` it takes the slice `lines.slice(from_, to)` with
`to = from_ + (MAX - 1)`, appends one synthetic empty line, applies that
chunk with validation skipped, and continues at `to` with `column` reset to
`0`.  It returns the document, the accumulated events, and the final values
of `from` and `column`.  The `2 ≤ MAX` guard makes the model total (the
source would not terminate for `MAX ≤ 1`; the only call passes 20000); the
chunk application goes through `applyDeltaNoChunk`, which coincides with
`applyDelta` because a chunk has `MAX ≤ 20000` lines. -/
def Document.splitLoop (doc : Document) (events : List Event) (lines : List Line)
    (action : DeltaAction) (MAX : Nat) (l : Int) (row column from_ : Nat) :
    Document × List Event × Nat × Nat :=
  if h : (from_ : Int) < l ∧ 2 ≤ MAX then
    let to_ := from_ + (MAX - 1)
    let chunk := (lines.drop from_).take (to_ - from_) ++ [([] : Line)]
    let r := doc.applyDeltaNoChunk ⟨⟨row + from_, column⟩, ⟨row + to_, 0⟩, action, chunk⟩
    Document.splitLoop r.doc (events ++ r.events) lines action MAX l row 0 to_
  else
    (doc, events, from_, column)
termination_by (l - from_).toNat
decreasing_by
  obtain ⟨h1, h2⟩ := h
  omega

/-- `$splitAndapplyLargeDelta(delta, MAX)`: runs the chunking loop with
`l = lines.length - MAX + 1`, then mutates the caller's delta in place
(`delta.lines = lines.slice(from)`, `delta.start.row = row + from`,
`delta.start.column = column`) and applies the remaining tail with
validation skipped.  The tail has fewer than `MAX ≤ 20000` lines, so its
`applyDelta` call coincides with `applyDeltaNoChunk`. -/
def Document.splitAndapplyLargeDelta (doc : Document) (delta : Delta) (MAX : Nat) :
    ApplyResult :=
  let lines := delta.lines
  let l : Int := (lines.length : Int) - MAX + 1
  let row := delta.start.row
  let column := delta.start.column
  let s := doc.splitLoop [] lines delta.action MAX l row column 0
  let delta2 : Delta := { delta with lines := lines.drop s.2.2.1, start := ⟨row + s.2.2.1, s.2.2.2⟩ }
  let r := s.1.applyDeltaNoChunk delta2
  ⟨r.doc, s.2.1 ++ r.events, delta2⟩

/-- `applyDelta(delta, doNotValidate)`: an insert whose lines are a single
empty string, or a remove whose start equals its end under the comparator,
is a no-op; an insert of more than 20000 lines is routed through
`$splitAndapplyLargeDelta`; otherwise the delta is spliced into `$lines`
and a `"change"` event is signalled.  The returned `delta` field is the
value the caller's delta object holds after the call. -/
def Document.applyDelta (doc : Document) (delta : Delta) (doNotValidate : Bool) :
    ApplyResult :=
  match delta.action with
  | DeltaAction.insert =>
    if delta.lines.length ≤ 1 ∧ delta.lines.getD 0 [] = [] then ⟨doc, [], delta⟩
    else if 20000 < delta.lines.length then doc.splitAndapplyLargeDelta delta 20000
    else ⟨{ doc with lines := spliceLines doc.lines delta }, [Event.change delta], delta⟩
  | DeltaAction.remove =>
    if comparePoints delta.start delta.stop = 0 then ⟨doc, [], delta⟩
    else ⟨{ doc with lines := spliceLines doc.lines delta }, [Event.change delta], delta⟩

/-- `$safeApplyDelta(delta)`: applies the delta only when its rows still
fit the current `$lines` length (remove: both rows strictly below the
length; insert: start row at most the length), otherwise silently does
nothing. -/
def Document.safeApplyDelta (doc : Document) (delta : Delta) : ApplyResult :=
  let docLength := doc.lines.length
  if (delta.action = DeltaAction.remove ∧ delta.start.row < docLength
        ∧ delta.stop.row < docLength)
      ∨ (delta.action = DeltaAction.insert ∧ delta.start.row ≤ docLength) then
    doc.applyDelta delta false
  else ⟨doc, [], delta⟩

/-- `revertDelta(delta)`: builds the inverse delta from copies
(`clonePos` of both endpoints, `lines.slice()` of the lines — the copy is
written `drop 0` here) with the action swapped, and routes it through
`$safeApplyDelta`.  Any in-place mutation done by the application hits the
freshly built inverse, never the caller's delta, which is therefore
returned unchanged. -/
def Document.revertDelta (doc : Document) (delta : Delta) : ApplyResult :=
  let inverse : Delta :=
    ⟨Document.clonePos delta.start, Document.clonePos delta.stop,
     (if delta.action = DeltaAction.insert then DeltaAction.remove else DeltaAction.insert),
     delta.lines.drop 0⟩
  let r := doc.safeApplyDelta inverse
  ⟨r.doc, r.events, delta⟩

/-- `applyDeltas(deltas)`: applies every delta in order. -/
def Document.applyDeltas (doc : Document) (deltas : List Delta) : Document × List Event :=
  deltas.foldl (fun s d => ((s.1.applyDelta d false).doc, s.2 ++ (s.1.applyDelta d false).events))
    (doc, [])

/-- `revertDeltas(deltas)`: reverts the deltas in strict reverse order. -/
def Document.revertDeltas (doc : Document) (deltas : List Delta) : Document × List Event :=
  deltas.reverse.foldl
    (fun s d => ((s.1.revertDelta d).doc, s.2 ++ (s.1.revertDelta d).events)) (doc, [])

/-- `insertMergedLines(position, lines)`: clips the position, computes the
end point (`row + lines.length - 1`; the last line's length, offset by the
start column when the insert is single-line), applies the insert delta and
returns the end point. -/
def Document.insertMergedLines (doc : Document) (position : Pos) (lines : List Line) :
    OpResult Pos :=
  let start := doc.clippedPos position.row position.column
  let stop : Pos :=
    ⟨start.row + lines.length - 1,
     (if lines.length = 1 then start.column else 0) + (lines.getLastD []).length⟩
  let r := doc.applyDelta ⟨start, stop, DeltaAction.insert, lines⟩ false
  ⟨stop, r.doc, r.events⟩

/-- `insert(position, text)`: when the document still has a single line it
first auto-detects the newline from `text`, then delegates to
`insertMergedLines` on `$split(text)`. -/
def Document.insert (doc : Document) (position : Pos) (text : Line) : OpResult Pos :=
  let s := if doc.getLength ≤ 1 then doc.detectNewLine text else (doc, [])
  let r := s.1.insertMergedLines position (Document.split text)
  ⟨r.val, r.doc, s.2 ++ r.events⟩

/-- `insertInLine(position, text)`: the single-line fast path, applied with
validation skipped. -/
def Document.insertInLine (doc : Document) (position : Pos) (text : Line) : OpResult Pos :=
  let start := doc.clippedPos position.row position.column
  let stop := Document.pos position.row (position.column + text.length)
  let r := doc.applyDelta ⟨start, stop, DeltaAction.insert, [text]⟩ true
  ⟨Document.clonePos stop, r.doc, r.events⟩

/-- `insertFullLines(row, lines)`: inserting before an existing row appends
a trailing empty line; inserting past the end prepends a leading empty line
and anchors at the end of the prior last line. -/
def Document.insertFullLines (doc : Document) (row : Nat) (lines : List Line) :
    OpResult Unit :=
  let row2 := min (max row 0) doc.getLength
  if row2 < doc.getLength then
    let r := doc.insertMergedLines ⟨row2, 0⟩ (lines ++ [([] : Line)])
    ⟨(), r.doc, r.events⟩
  else
    let row3 := row2 - 1
    let r := doc.insertMergedLines ⟨row3, (doc.lines.getD row3 []).length⟩ (([] : Line) :: lines)
    ⟨(), r.doc, r.events⟩

/-- `remove(range)`: clips both endpoints, removes the range's lines and
returns the clipped start. -/
def Document.remove (doc : Document) (startP stopP : Pos) : OpResult Pos :=
  let start := doc.clippedPos startP.row startP.column
  let stop := doc.clippedPos stopP.row stopP.column
  let r := doc.applyDelta ⟨start, stop, DeltaAction.remove, doc.getLinesForRange start stop⟩
    false
  ⟨Document.clonePos start, r.doc, r.events⟩

/-- `removeInLine(row, startColumn, endColumn)`: the single-row fast path,
applied with validation skipped. -/
def Document.removeInLine (doc : Document) (row startColumn endColumn : Nat) : OpResult Pos :=
  let start := doc.clippedPos row startColumn
  let stop := doc.clippedPos row endColumn
  let r := doc.applyDelta ⟨start, stop, DeltaAction.remove, doc.getLinesForRange start stop⟩
    true
  ⟨Document.clonePos start, r.doc, r.events⟩

/-- `removeFullLines(firstRow, lastRow)`: clips both rows, deletes the
ending newline unless the removal reaches the last row (then the starting
newline, when `firstRow > 0`), removes the computed range and returns the
deleted rows verbatim. -/
def Document.removeFullLines (doc : Document) (firstRow lastRow : Nat) :
    OpResult (List Line) :=
  let firstRow2 := min (max 0 firstRow) (doc.getLength - 1)
  let lastRow2 := min (max 0 lastRow) (doc.getLength - 1)
  -- The source binds `deleteFirstNewLine` and `deleteLastNewLine` to these
  -- two conditions; they are inlined at each use here.
  let startRow := if lastRow2 = doc.getLength - 1 ∧ 0 < firstRow2 then firstRow2 - 1
    else firstRow2
  let startCol := if lastRow2 = doc.getLength - 1 ∧ 0 < firstRow2 then
    (doc.getLine startRow).length else 0
  let endRow := if lastRow2 < doc.getLength - 1 then lastRow2 + 1 else lastRow2
  let endCol := if lastRow2 < doc.getLength - 1 then 0 else (doc.getLine endRow).length
  let deletedLines := (doc.lines.drop firstRow2).take (lastRow2 + 1 - firstRow2)
  let r := doc.applyDelta
    ⟨⟨startRow, startCol⟩, ⟨endRow, endCol⟩, DeltaAction.remove,
     doc.getLinesForRange ⟨startRow, startCol⟩ ⟨endRow, endCol⟩⟩ false
  ⟨deletedLines, r.doc, r.events⟩

/-- `removeNewLine(row)`: merges `row` and `row + 1` when `row` is neither
negative nor the last row. -/
def Document.removeNewLine (doc : Document) (row : Nat) : Document × List Event :=
  if row < doc.getLength - 1 then
    let r := doc.applyDelta
      ⟨Document.pos row (doc.getLine row).length, Document.pos (row + 1) 0,
       DeltaAction.remove, [[], []]⟩ false
    (r.doc, r.events)
  else (doc, [])

/-- `setValue(text)`: removes the whole current content, then inserts
`text` at the origin. -/
def Document.setValue (doc : Document) (text : Line) : Document × List Event :=
  let len := doc.getLength - 1
  let r1 := doc.remove ⟨0, 0⟩ ⟨len, (doc.getLine len).length⟩
  let r2 := r1.doc.insert ⟨0, 0⟩ text
  (r2.doc, r1.events ++ r2.events)

/-- `replace(range, text)`: no-op when the text is empty and the range is
empty, or when the text equals the current range content; otherwise remove
then insert.  Range emptiness is the spec's row-and-column equality. -/
def Document.replace (doc : Document) (startP stopP : Pos) (text : Line) : OpResult Pos :=
  if text.length = 0 ∧ startP = stopP then ⟨startP, doc, []⟩
  else if text = doc.getTextRange startP stopP then ⟨stopP, doc, []⟩
  else
    let r1 := doc.remove startP stopP
    if text ≠ [] then
      let r2 := r1.doc.insert startP text
      ⟨r2.val, r2.doc, r1.events ++ r2.events⟩
    else ⟨startP, r1.doc, r1.events⟩

/-- `setNewLineMode(newLineMode)`. -/
def Document.setNewLineMode (doc : Document) (mode : NewLineMode) : Document × List Event :=
  if doc.newLineMode = mode then (doc, [])
  else ({ doc with newLineMode := mode }, [Event.changeNewLineMode])

/-- The loop of `indexToPosition`: for each remaining line the line length
plus the newline length is subtracted from `index`; when it would go
negative the current row is returned with the not-yet-subtracted remainder
as column.  When the lines run out, the source returns row `l - 1` (the
last row of the whole array) with `lines[l-1].length + newlineLength` added
back. -/
def Document.idxPosLoop (newlineLength : Nat) (lastRowIdx : Nat) (lastLine : Line) :
    List Line → Nat → Int → Nat × Int
  | [], _, index =>
    (lastRowIdx, index + ((lastLine.length + newlineLength : Nat) : Int))
  | li :: rest, i, index =>
    let d : Int := ((li.length + newlineLength : Nat) : Int)
    if index - d < 0 then (i, index - d + d)
    else Document.idxPosLoop newlineLength lastRowIdx lastLine rest (i + 1) (index - d)

/-- `indexToPosition(index, startRow)`: walks the rows from `startRow`,
charging each row its length plus one newline length.  The column is kept
as an integer, exactly as the source computes it. -/
def Document.indexToPosition (doc : Document) (index : Int) (startRow : Nat) : Nat × Int :=
  Document.idxPosLoop doc.getNewLineCharacter.length (doc.lines.length - 1)
    (doc.lines.getD (doc.lines.length - 1) []) (doc.lines.drop startRow) startRow index

/-- `positionToIndex(pos, startRow)`: sums `lines[i].length +
newlineLength` for `i` in `[startRow, min(pos.row, lines.length))`, then
adds the column. -/
def Document.positionToIndex (doc : Document) (pos : Pos) (startRow : Nat) : Nat :=
  let newlineLength := doc.getNewLineCharacter.length
  let row := min pos.row doc.lines.length
  (((doc.lines.drop startRow).take (row - startRow)).map
      (fun li => li.length + newlineLength)).sum + pos.column

/-- The constructor's argument: a string or an array of lines. -/
inductive TextOrLines where
  | text (t : Line)
  | linesOf (ls : List Line)

/-- The `Document` constructor: starts from `[""]`; empty input keeps the
single empty line, an array goes through `insertMergedLines`, a string
through `insert`. -/
def mkDocument : TextOrLines → Document × List Event
  | TextOrLines.text t =>
    let doc : Document := ⟨[[]], [], NewLineMode.auto⟩
    if t.length = 0 then (doc, [])
    else
      let r := doc.insert ⟨0, 0⟩ t
      (r.doc, r.events)
  | TextOrLines.linesOf ls =>
    let doc : Document := ⟨[[]], [], NewLineMode.auto⟩
    if ls.length = 0 then (doc, [])
    else
      let r := doc.insertMergedLines ⟨0, 0⟩ ls
      (r.doc, r.events)

/-- One public operation on a document, for stating invariants over
arbitrary operation sequences. -/
inductive DocOp where
  | insert (position : Pos) (text : Line)
  | insertInLine (position : Pos) (text : Line)
  | insertMergedLines (position : Pos) (lines : List Line)
  | insertFullLines (row : Nat) (lines : List Line)
  | remove (start stop : Pos)
  | removeInLine (row startColumn endColumn : Nat)
  | removeFullLines (firstRow lastRow : Nat)
  | removeNewLine (row : Nat)
  | setValue (text : Line)
  | replace (start stop : Pos) (text : Line)
  | applyDelta (delta : Delta)
  | revertDelta (delta : Delta)
  | applyDeltas (deltas : List Delta)
  | revertDeltas (deltas : List Delta)
  | setNewLineMode (mode : NewLineMode)

/-- Runs one operation, keeping only the document state. -/
def runOp (doc : Document) : DocOp → Document
  | DocOp.insert p t => (doc.insert p t).doc
  | DocOp.insertInLine p t => (doc.insertInLine p t).doc
  | DocOp.insertMergedLines p ls => (doc.insertMergedLines p ls).doc
  | DocOp.insertFullLines r ls => (doc.insertFullLines r ls).doc
  | DocOp.remove s e => (doc.remove s e).doc
  | DocOp.removeInLine r a b => (doc.removeInLine r a b).doc
  | DocOp.removeFullLines a b => (doc.removeFullLines a b).doc
  | DocOp.removeNewLine r => (doc.removeNewLine r).1
  | DocOp.setValue t => (doc.setValue t).1
  | DocOp.replace s e t => (doc.replace s e t).doc
  | DocOp.applyDelta d => (doc.applyDelta d false).doc
  | DocOp.revertDelta d => (doc.revertDelta d).doc
  | DocOp.applyDeltas ds => (doc.applyDeltas ds).1
  | DocOp.revertDeltas ds => (doc.revertDeltas ds).1
  | DocOp.setNewLineMode m => (doc.setNewLineMode m).1

/-- Runs a sequence of operations. -/
def runOps (doc : Document) (ops : List DocOp) : Document :=
  ops.foldl runOp doc

/-! ### List helper lemmas -/

lemma set_getElem_self {α : Type} (l : List α) (m : Nat) (h : m < l.length) :
    l.set m l[m] = l := by
  apply List.ext_getElem
  · simp
  · intro i h1 h2
    simp only [List.getElem_set]
    split
    · next he => subst he; rfl
    · rfl

lemma set_getD_self {α : Type} (l : List α) (m : Nat) (d : α) (h : m < l.length) :
    l.set m (l.getD m d) = l := by
  rw [List.getD_eq_getElem l d h]
  exact set_getElem_self l m h

lemma take_getD_drop {α : Type} (l : List α) (m : Nat) (d : α) (h : m < l.length) :
    l.take m ++ l.getD m d :: l.drop (m + 1) = l := by
  rw [List.getD_eq_getElem l d h, ← List.drop_eq_getElem_cons h, List.take_append_drop]

lemma getD_cons_drop {α : Type} (l : List α) (n : Nat) (d : α) (h : n < l.length) :
    l.getD n d :: l.drop (n + 1) = l.drop n := by
  rw [List.getD_eq_getElem l d h]
  exact (List.drop_eq_getElem_cons h).symm

lemma getD_append_left {α : Type} (l1 l2 : List α) (n : Nat) (d : α) (h : n < l1.length) :
    (l1 ++ l2).getD n d = l1.getD n d := by
  simp [List.getD_eq_getElem?_getD, List.getElem?_append_left h]

lemma getD_append_right {α : Type} (l1 l2 : List α) (n : Nat) (d : α) (h : l1.length ≤ n) :
    (l1 ++ l2).getD n d = l2.getD (n - l1.length) d := by
  simp [List.getD_eq_getElem?_getD, List.getElem?_append_right h]

lemma take_append_of_length_eq {α : Type} {l1 : List α} {n : Nat} (l2 : List α)
    (h : l1.length = n) : (l1 ++ l2).take n = l1 := List.take_left' h

lemma drop_append_of_length_eq {α : Type} {l1 : List α} {n : Nat} (l2 : List α)
    (h : l1.length = n) : (l1 ++ l2).drop n = l2 := List.drop_left' h

/-! ### Normal forms for the splice primitive -/

/-- The one-line insert arm of the splice. -/
lemma insLines_single (D : List Line) (r c : Nat) (x : Line) :
    insLines D r c [x] =
      D.set r ((D.getD r []).take c ++ x ++ (D.getD r []).drop c) := by
  simp [insLines]

/-- The multi-line insert arm of the splice, with the lines written as
first element, middle block and last element. -/
lemma insLines_pair (D : List Line) (r c : Nat) (x y : Line) (M : List Line) :
    insLines D r c (x :: (M ++ [y])) =
      D.take r ++ ((D.getD r []).take c ++ x)
        :: (M ++ (y ++ (D.getD r []).drop c) :: D.drop (r + 1)) := by
  have hlen : (x :: (M ++ [y])).length = M.length + 2 := by simp
  have hlast : (x :: (M ++ [y])).getLast? = some y := by
    rw [show x :: (M ++ [y]) = (x :: M) ++ [y] by simp]
    exact List.getLast?_concat (x :: M)
  simp only [insLines, hlen]
  rw [if_neg (by omega)]
  simp [List.getLastD_eq_getLast?, hlast, List.dropLast_concat]

/-- The same-row remove arm of the splice. -/
lemma remLines_same (D : List Line) (r c1 c2 : Nat) :
    remLines D r c1 r c2 = D.set r ((D.getD r []).take c1 ++ (D.getD r []).drop c2) := by
  simp [remLines]

/-- The multi-row remove arm of the splice. -/
lemma remLines_multi (D : List Line) (r c1 r2 c2 : Nat) (h : r ≠ r2) :
    remLines D r c1 r2 c2 =
      D.take r ++ ((D.getD r []).take c1 ++ (D.getD r2 []).drop c2) :: D.drop (r2 + 1) := by
  simp [remLines, h]

lemma getD_set_self {α : Type} (l : List α) (m : Nat) (a d : α) (h : m < l.length) :
    (l.set m a).getD m d = a := by
  simp [List.getD_eq_getElem?_getD, h]

lemma length_take_of_le {α : Type} {l : List α} {c : Nat} (h : c ≤ l.length) :
    (l.take c).length = c := by
  simp [List.length_take]
  omega

lemma take_append_left_of_le {α : Type} (l1 l2 : List α) (c : Nat) (h : c ≤ l1.length) :
    (l1 ++ l2).take c = l1.take c := by
  rw [List.take_append_eq_append_take]
  simp [Nat.sub_eq_zero_of_le h]

/-! ### Inverse laws for the splice primitive -/

/-- Removing the freshly inserted single-line span restores the document. -/
lemma remLines_insLines_single (D : List Line) (r c : Nat) (x : Line)
    (hr : r < D.length) (hc : c ≤ (D.getD r []).length) :
    remLines (insLines D r c [x]) r c r (c + x.length) = D := by
  have htc : ((D.getD r []).take c).length = c := length_take_of_le hc
  rw [insLines_single, remLines_same]
  rw [getD_set_self _ _ _ _ hr]
  have h1 : ((D.getD r []).take c ++ x ++ (D.getD r []).drop c).take c
      = (D.getD r []).take c := by
    rw [List.append_assoc, take_append_left_of_le _ _ c (le_of_eq htc.symm),
      List.take_take, Nat.min_self]
  have h2 : ((D.getD r []).take c ++ x ++ (D.getD r []).drop c).drop (c + x.length)
      = (D.getD r []).drop c := by
    rw [List.append_assoc, ← List.append_assoc]
    exact drop_append_of_length_eq _ (by rw [List.length_append, htc])
  rw [h1, h2, List.set_set, List.take_append_drop, set_getD_self _ _ _ hr]

/-- Removing the freshly inserted multi-line span restores the document. -/
lemma remLines_insLines_pair (D : List Line) (r c : Nat) (x y : Line) (M : List Line)
    (hr : r < D.length) (hc : c ≤ (D.getD r []).length) :
    remLines (insLines D r c (x :: (M ++ [y]))) r c (r + M.length + 1) y.length = D := by
  have htake : (D.take r).length = r := by simp; omega
  have htc : ((D.getD r []).take c).length = c := length_take_of_le hc
  rw [insLines_pair, remLines_multi _ _ _ _ _ (by omega)]
  have hD' : D.take r ++ ((D.getD r []).take c ++ x)
        :: (M ++ (y ++ (D.getD r []).drop c) :: D.drop (r + 1))
      = (D.take r ++ ((D.getD r []).take c ++ x) :: M ++ [y ++ (D.getD r []).drop c])
        ++ D.drop (r + 1) := by
    simp
  have hlen2 : (D.take r ++ ((D.getD r []).take c ++ x) :: M
      ++ [y ++ (D.getD r []).drop c]).length = r + M.length + 2 := by
    simp [htake]
    omega
  have hget1 : (D.take r ++ ((D.getD r []).take c ++ x)
        :: (M ++ (y ++ (D.getD r []).drop c) :: D.drop (r + 1))).getD r []
      = (D.getD r []).take c ++ x := by
    rw [getD_append_right _ _ _ _ (le_of_eq htake), htake, Nat.sub_self]
    rfl
  have hget2 : (D.take r ++ ((D.getD r []).take c ++ x)
        :: (M ++ (y ++ (D.getD r []).drop c) :: D.drop (r + 1))).getD (r + M.length + 1) []
      = y ++ (D.getD r []).drop c := by
    rw [getD_append_right _ _ _ _ (by omega), htake]
    have : r + M.length + 1 - r = M.length + 1 := by omega
    rw [this]
    show (M ++ (y ++ (D.getD r []).drop c) :: D.drop (r + 1)).getD M.length [] = _
    rw [getD_append_right _ _ _ _ (le_refl _), Nat.sub_self]
    rfl
  rw [hget1, hget2]
  have htk : (D.take r ++ ((D.getD r []).take c ++ x)
        :: (M ++ (y ++ (D.getD r []).drop c) :: D.drop (r + 1))).take r = D.take r := by
    rw [take_append_left_of_le _ _ r (le_of_eq htake.symm), List.take_take, Nat.min_self]
  have hdp : (D.take r ++ ((D.getD r []).take c ++ x)
        :: (M ++ (y ++ (D.getD r []).drop c) :: D.drop (r + 1))).drop (r + M.length + 2)
      = D.drop (r + 1) := by
    rw [hD']
    exact drop_append_of_length_eq _ hlen2
  rw [htk, hdp]
  have hxc : ((D.getD r []).take c ++ x).take c = (D.getD r []).take c := by
    rw [take_append_left_of_le _ _ c (le_of_eq htc.symm), List.take_take, Nat.min_self]
  have hyc : (y ++ (D.getD r []).drop c).drop y.length = (D.getD r []).drop c :=
    drop_append_of_length_eq _ rfl
  rw [hxc, hyc, List.take_append_drop, take_getD_drop _ _ _ hr]

/-- Inserting back the removed same-row span restores the document. -/
lemma insLines_remLines_same (D : List Line) (r c1 c2 : Nat)
    (hr : r < D.length) (h12 : c1 ≤ c2) (hc2 : c2 ≤ (D.getD r []).length) :
    insLines (remLines D r c1 r c2) r c1 [((D.getD r []).take c2).drop c1] = D := by
  have hc1 : c1 ≤ (D.getD r []).length := le_trans h12 hc2
  have htc : ((D.getD r []).take c1).length = c1 := length_take_of_le hc1
  rw [remLines_same, insLines_single]
  rw [getD_set_self _ _ _ _ hr]
  have h1 : ((D.getD r []).take c1 ++ (D.getD r []).drop c2).take c1
      = (D.getD r []).take c1 := by
    rw [take_append_left_of_le _ _ c1 (le_of_eq htc.symm), List.take_take, Nat.min_self]
  have h2 : ((D.getD r []).take c1 ++ (D.getD r []).drop c2).drop c1
      = (D.getD r []).drop c2 := drop_append_of_length_eq _ htc
  rw [h1, h2, List.set_set]
  have h3 : (D.getD r []).take c1 ++ ((D.getD r []).take c2).drop c1
      = (D.getD r []).take c2 := by
    have : (D.getD r []).take c1 = ((D.getD r []).take c2).take c1 := by
      rw [List.take_take, Nat.min_eq_left h12]
    rw [this, List.take_append_drop]
  rw [List.append_assoc, ← List.append_assoc, h3, List.take_append_drop,
    set_getD_self _ _ _ hr]

/-- Inserting back the removed multi-row span restores the document. -/
lemma insLines_remLines_multi (D : List Line) (r1 c1 r2 c2 : Nat)
    (h12 : r1 < r2) (hr2 : r2 < D.length)
    (hc1 : c1 ≤ (D.getD r1 []).length) (hc2 : c2 ≤ (D.getD r2 []).length) :
    insLines (remLines D r1 c1 r2 c2) r1 c1
      ((D.getD r1 []).drop c1
        :: (((D.drop (r1 + 1)).take (r2 - r1 - 1)) ++ [(D.getD r2 []).take c2])) = D := by
  have hr1 : r1 < D.length := lt_trans h12 hr2
  have htake1 : (D.take r1).length = r1 := by simp; omega
  have htc1 : ((D.getD r1 []).take c1).length = c1 := length_take_of_le hc1
  rw [remLines_multi _ _ _ _ _ (by omega), insLines_pair]
  have hget : (D.take r1 ++ ((D.getD r1 []).take c1 ++ (D.getD r2 []).drop c2)
        :: D.drop (r2 + 1)).getD r1 []
      = (D.getD r1 []).take c1 ++ (D.getD r2 []).drop c2 := by
    rw [getD_append_right _ _ _ _ (le_of_eq htake1), htake1, Nat.sub_self]
    rfl
  rw [hget]
  have h1 : ((D.getD r1 []).take c1 ++ (D.getD r2 []).drop c2).take c1
      = (D.getD r1 []).take c1 := by
    rw [take_append_left_of_le _ _ c1 (le_of_eq htc1.symm), List.take_take, Nat.min_self]
  have h2 : ((D.getD r1 []).take c1 ++ (D.getD r2 []).drop c2).drop c1
      = (D.getD r2 []).drop c2 := drop_append_of_length_eq _ htc1
  have h3 : (D.take r1 ++ ((D.getD r1 []).take c1 ++ (D.getD r2 []).drop c2)
        :: D.drop (r2 + 1)).take r1 = D.take r1 := by
    rw [take_append_left_of_le _ _ r1 (le_of_eq htake1.symm), List.take_take, Nat.min_self]
  have h4 : (D.take r1 ++ ((D.getD r1 []).take c1 ++ (D.getD r2 []).drop c2)
        :: D.drop (r2 + 1)).drop (r1 + 1) = D.drop (r2 + 1) := by
    rw [show D.take r1 ++ ((D.getD r1 []).take c1 ++ (D.getD r2 []).drop c2)
          :: D.drop (r2 + 1)
        = (D.take r1 ++ [(D.getD r1 []).take c1 ++ (D.getD r2 []).drop c2])
          ++ D.drop (r2 + 1) by simp]
    exact drop_append_of_length_eq _ (by simp [htake1])
  rw [h1, h2, h3, h4]
  have h5 : (D.getD r1 []).take c1 ++ (D.getD r1 []).drop c1 = D.getD r1 [] :=
    List.take_append_drop _ _
  have h6 : (D.getD r2 []).take c2 ++ (D.getD r2 []).drop c2 = D.getD r2 [] :=
    List.take_append_drop _ _
  rw [h5, h6]
  have h7 : (D.getD r2 []) :: D.drop (r2 + 1) = D.drop r2 := getD_cons_drop D r2 [] hr2
  rw [h7]
  have h8 : (D.drop (r1 + 1)).take (r2 - r1 - 1) ++ D.drop r2 = D.drop (r1 + 1) := by
    have : D.drop r2 = (D.drop (r1 + 1)).drop (r2 - r1 - 1) := by
      rw [List.drop_drop]
      congr 1
      omega
    rw [this, List.take_append_drop]
  rw [h8]
  have h9 : (D.getD r1 []) :: D.drop (r1 + 1) = D.drop r1 := getD_cons_drop D r1 [] hr1
  rw [h9, List.take_append_drop]

/-! ### Characterization of getLinesForRange on valid ranges -/

/-- A same-row range yields the single substring of the addressed line. -/
lemma getLinesForRange_same (doc : Document) (r c1 c2 : Nat) (h : c1 ≤ c2) :
    doc.getLinesForRange ⟨r, c1⟩ ⟨r, c2⟩ = [((doc.lines.getD r []).take c2).drop c1] := by
  simp [Document.getLinesForRange, jsSubstring, Document.getLine,
    Nat.max_eq_right h, Nat.min_eq_left h]

/-- A well-formed multi-row range yields the first line's suffix, the
verbatim middle rows, and the last line's prefix. -/
lemma getLinesForRange_multi (doc : Document) (r1 c1 r2 c2 : Nat)
    (h12 : r1 < r2) (hr2 : r2 < doc.lines.length) :
    doc.getLinesForRange ⟨r1, c1⟩ ⟨r2, c2⟩ =
      (doc.lines.getD r1 []).drop c1
        :: (((doc.lines.drop (r1 + 1)).take (r2 - r1 - 1))
          ++ [(doc.lines.getD r2 []).take c2]) := by
  have hr1 : r1 < doc.lines.length := lt_trans h12 hr2
  have hlines0 : doc.getLines r1 r2
      = doc.lines.getD r1 [] :: (doc.lines.drop (r1 + 1)).take (r2 - r1) := by
    rw [Document.getLines, ← getD_cons_drop doc.lines r1 [] hr1]
    have : r2 + 1 - r1 = (r2 - r1) + 1 := by omega
    rw [this, List.take_succ_cons]
  have hTlen : ((doc.lines.drop (r1 + 1)).take (r2 - r1)).length = r2 - r1 := by
    simp
    omega
  rw [Document.getLinesForRange]
  rw [if_neg (by simp; omega)]
  simp only [hlines0]
  have hget0 : (doc.lines.getD r1 []
        :: (doc.lines.drop (r1 + 1)).take (r2 - r1)).getD 0 [] = doc.lines.getD r1 [] := rfl
  have hdrop1 : (doc.lines.getD r1 []
        :: (doc.lines.drop (r1 + 1)).take (r2 - r1)).drop 1
      = (doc.lines.drop (r1 + 1)).take (r2 - r1) := rfl
  simp only [hget0, hdrop1]
  have hlen1 : ((doc.lines.getD r1 []).drop c1
      :: (doc.lines.drop (r1 + 1)).take (r2 - r1)).length = (r2 - r1) + 1 := by
    simp [hTlen]
  simp only [hlen1]
  rw [if_pos (by push_cast; omega)]
  have hidx : (r2 - r1) + 1 - 1 = (r2 - r1) := by omega
  rw [hidx]
  have hr21 : r2 - r1 = (r2 - r1 - 1) + 1 := by omega
  have hgetlast : ((doc.lines.getD r1 []).drop c1
        :: (doc.lines.drop (r1 + 1)).take (r2 - r1)).getD (r2 - r1) []
      = doc.lines.getD r2 [] := by
    rw [hr21, List.getD_cons_succ]
    rw [List.getD_eq_getElem?_getD, List.getElem?_take_of_lt (by omega),
      List.getElem?_drop, ← List.getD_eq_getElem?_getD]
    congr 1
    omega
  rw [hgetlast]
  have hset : ((doc.lines.getD r1 []).drop c1
        :: (doc.lines.drop (r1 + 1)).take (r2 - r1)).set (r2 - r1)
        ((doc.lines.getD r2 []).take c2)
      = (doc.lines.getD r1 []).drop c1
        :: (((doc.lines.drop (r1 + 1)).take (r2 - r1 - 1))
          ++ [(doc.lines.getD r2 []).take c2]) := by
    rw [hr21, List.set_cons_succ]
    congr 1
    rw [List.set_eq_take_cons_drop _ (by simp; omega)]
    have htt : ((doc.lines.drop (r1 + 1)).take ((r2 - r1 - 1) + 1)).take (r2 - r1 - 1)
        = (doc.lines.drop (r1 + 1)).take (r2 - r1 - 1) := by
      rw [List.take_take]
      congr 1
      omega
    have htd : ((doc.lines.drop (r1 + 1)).take ((r2 - r1 - 1) + 1)).drop ((r2 - r1 - 1) + 1)
        = [] := by
      apply List.drop_eq_nil_of_le
      rw [← hr21, hTlen]
    rw [htt, htd]
    simp only [show r2 - r1 - 1 + 1 - 1 = r2 - r1 - 1 from by omega]
  rw [hset]

lemma set_append_length_add {α : Type} (l1 l2 : List α) (n : Nat) (a : α) :
    (l1 ++ l2).set (l1.length + n) a = l1 ++ l2.set n a := by
  simp [List.set_append]

lemma set_append_length {α : Type} (l1 l2 : List α) (a : α) :
    (l1 ++ l2).set l1.length a = l1 ++ l2.set 0 a := by
  simp [List.set_append]

/-! ### Composition of inserts at the chunk seam -/

/-- Inserting `A` with a synthetic empty terminator at `(r, c)` and then
`B` at `(r + A.length, 0)` is the same as inserting `A ++ B` at `(r, c)`:
the seam row created by the empty terminator is exactly where the next
chunk lands. -/
lemma insLines_comp (D : List Line) (r c : Nat) (A B : List Line)
    (hr : r < D.length) (hA : A ≠ []) (hB : B ≠ []) :
    insLines (insLines D r c (A ++ [([] : Line)])) (r + A.length) 0 B
      = insLines D r c (A ++ B) := by
  obtain ⟨a, A2, rfl⟩ : ∃ a A2, A = a :: A2 := by
    cases A with
    | nil => exact absurd rfl hA
    | cons a A2 => exact ⟨a, A2, rfl⟩
  have htake : (D.take r).length = r := by simp; omega
  have hfirst : (a :: A2) ++ [([] : Line)] = a :: (A2 ++ [([] : Line)]) := by simp
  rw [hfirst, insLines_pair]
  set lineTake := (D.getD r []).take c with hlt
  set lineDrop := (D.getD r []).drop c with hld
  set D2 := D.take r ++ (lineTake ++ a) :: (A2 ++ ([] ++ lineDrop) :: D.drop (r + 1))
    with hD2
  have hD2s : D2 = (D.take r ++ (lineTake ++ a) :: A2) ++ lineDrop :: D.drop (r + 1) := by
    rw [hD2]
    simp
  have hplen : (D.take r ++ (lineTake ++ a) :: A2).length = r + (a :: A2).length := by
    simp [htake]
  have hget2 : D2.getD (r + (a :: A2).length) [] = lineDrop := by
    rw [hD2s, getD_append_right _ _ _ _ (le_of_eq hplen), hplen, Nat.sub_self]
    rfl
  rcases List.eq_nil_or_concat B with rfl | ⟨M0, y, rfl⟩
  · exact absurd rfl hB
  simp only [List.concat_eq_append] at hB ⊢
  rcases List.eq_nil_or_concat M0 with rfl | ⟨M1, b0, rfl⟩
  · -- B = [y]: the second insert is single-line.
    simp only [List.nil_append]
    rw [insLines_single, hget2]
    simp only [List.nil_append, List.take_zero, List.drop_zero]
    rw [hD2s, ← hplen, set_append_length]
    have hset0 : (lineDrop :: D.drop (r + 1)).set 0 (y ++ lineDrop)
        = (y ++ lineDrop) :: D.drop (r + 1) := by simp
    rw [hset0]
    have hAB : a :: A2 ++ [y] = a :: (A2 ++ [y]) := by simp
    rw [hAB, insLines_pair, ← hlt, ← hld]
    simp
  · -- B = b0 :: ... ++ [y] has at least two lines after regrouping.
    simp only [List.concat_eq_append] at hB ⊢
    have hBshape : (M1 ++ [b0]) ++ [y] = (M1 ++ [b0]).headI :: ((M1 ++ [b0]).tail ++ [y]) := by
      cases M1 with
      | nil => simp
      | cons m M2 => simp
    rw [hBshape, insLines_pair, hget2]
    simp only [List.take_zero, List.nil_append, List.drop_zero]
    have htk2 : D2.take (r + (a :: A2).length) = D.take r ++ (lineTake ++ a) :: A2 := by
      rw [hD2s]
      exact take_append_of_length_eq _ hplen
    have hdp2 : D2.drop (r + (a :: A2).length + 1) = D.drop (r + 1) := by
      rw [hD2s, show (D.take r ++ (lineTake ++ a) :: A2) ++ lineDrop :: D.drop (r + 1)
          = ((D.take r ++ (lineTake ++ a) :: A2) ++ [lineDrop]) ++ D.drop (r + 1) by simp]
      exact drop_append_of_length_eq _ (by simp [htake]; omega)
    rw [htk2, hdp2]
    have hABshape : a :: A2 ++ (M1 ++ [b0]).headI :: ((M1 ++ [b0]).tail ++ [y])
        = a :: ((A2 ++ (M1 ++ [b0]).headI :: (M1 ++ [b0]).tail) ++ [y]) := by
      simp
    rw [hABshape, insLines_pair, ← hlt, ← hld]
    simp

/-! ### The chunking loop -/

/-- The final value of the loop variable `from`: starting from `from_`, the
loop advances by `MAX - 1` while `from < l`. -/
def loopFinalFrom (MAX : Nat) (l : Int) (from_ : Nat) : Nat :=
  if h : (from_ : Int) < l ∧ 2 ≤ MAX then loopFinalFrom MAX l (from_ + (MAX - 1))
  else from_
termination_by (l - from_).toNat
decreasing_by
  obtain ⟨h1, h2⟩ := h
  omega

/-- The sub-deltas applied by the chunking loop: each window
`lines.slice(from, from + MAX - 1)` with one synthetic empty line appended,
inserted from `(row + from, column)` to `(row + from + MAX - 1, 0)`, the
column being reset to zero after the first window. -/
def loopChunkDeltas (lines : List Line) (action : DeltaAction) (MAX : Nat) (l : Int)
    (row column from_ : Nat) : List Delta :=
  if h : (from_ : Int) < l ∧ 2 ≤ MAX then
    ⟨⟨row + from_, column⟩, ⟨row + (from_ + (MAX - 1)), 0⟩, action,
      (lines.drop from_).take (from_ + (MAX - 1) - from_) ++ [([] : Line)]⟩
      :: loopChunkDeltas lines action MAX l row 0 (from_ + (MAX - 1))
  else []
termination_by (l - from_).toNat
decreasing_by
  obtain ⟨h1, h2⟩ := h
  omega

/-- Unfolding of `applyDeltaNoChunk` on a multi-line insert. -/
lemma applyDeltaNoChunk_insert_multi (doc : Document) (s e : Pos) (L : List Line)
    (h2 : 2 ≤ L.length) :
    doc.applyDeltaNoChunk ⟨s, e, DeltaAction.insert, L⟩ =
      ⟨{ doc with lines := insLines doc.lines s.row s.column L },
        [Event.change ⟨s, e, DeltaAction.insert, L⟩], ⟨s, e, DeltaAction.insert, L⟩⟩ := by
  rw [Document.applyDeltaNoChunk]
  rw [if_neg]
  · rfl
  · rintro ⟨h1, -⟩
    have h1x : L.length ≤ 1 := h1
    omega

/-- Unfolding of `applyDeltaNoChunk` on a nonempty single-line insert. -/
lemma applyDeltaNoChunk_insert_single (doc : Document) (s e : Pos) (x : Line)
    (hx : x ≠ []) :
    doc.applyDeltaNoChunk ⟨s, e, DeltaAction.insert, [x]⟩ =
      ⟨{ doc with lines := insLines doc.lines s.row s.column [x] },
        [Event.change ⟨s, e, DeltaAction.insert, [x]⟩], ⟨s, e, DeltaAction.insert, [x]⟩⟩ := by
  rw [Document.applyDeltaNoChunk]
  rw [if_neg]
  · rfl
  · rintro ⟨-, h1⟩
    exact hx h1

/-- Unfolding of `applyDeltaNoChunk` on the no-op insert `[""]`. -/
lemma applyDeltaNoChunk_insert_noop (doc : Document) (s e : Pos) :
    doc.applyDeltaNoChunk ⟨s, e, DeltaAction.insert, [[]]⟩ =
      ⟨doc, [], ⟨s, e, DeltaAction.insert, [[]]⟩⟩ := by
  rw [Document.applyDeltaNoChunk]
  rw [if_pos ⟨by simp, rfl⟩]

/-- The invariant carried by `splitLoop`, relating the loop state to the
insert of a prefix of the lines terminated by one synthetic empty line. -/
def SplitLoopInv (D0 : List Line) (r c : Nat) (L : List Line)
    (from_ col : Nat) (lines : List Line) : Prop :=
  (from_ = 0 ∧ col = c ∧ lines = D0) ∨
    (0 < from_ ∧ from_ < L.length ∧ col = 0 ∧
      lines = insLines D0 r c (L.take from_ ++ [([] : Line)]))

/-- Correctness of the chunking loop: it ends at `loopFinalFrom`, applies
exactly the `loopChunkDeltas` windows, preserves the newline fields, and
maintains `SplitLoopInv`. -/
lemma splitLoop_spec (L : List Line) (MAX : Nat) (l : Int)
    (hl : l ≤ (L.length : Int) - MAX + 1) (hM : 2 ≤ MAX)
    (D0 : Document) (r c : Nat) (hr : r < D0.lines.length) :
    ∀ (n from_ col : Nat) (doc : Document) (ev : List Event),
      (l - (from_ : Int)).toNat ≤ n →
      doc.autoNewLine = D0.autoNewLine → doc.newLineMode = D0.newLineMode →
      SplitLoopInv D0.lines r c L from_ col doc.lines →
      (doc.splitLoop ev L DeltaAction.insert MAX l r col from_).1.autoNewLine
          = D0.autoNewLine
      ∧ (doc.splitLoop ev L DeltaAction.insert MAX l r col from_).1.newLineMode
          = D0.newLineMode
      ∧ (doc.splitLoop ev L DeltaAction.insert MAX l r col from_).2.2.1
          = loopFinalFrom MAX l from_
      ∧ ¬ ((loopFinalFrom MAX l from_ : Int) < l)
      ∧ SplitLoopInv D0.lines r c L (loopFinalFrom MAX l from_)
          (doc.splitLoop ev L DeltaAction.insert MAX l r col from_).2.2.2
          (doc.splitLoop ev L DeltaAction.insert MAX l r col from_).1.lines
      ∧ (doc.splitLoop ev L DeltaAction.insert MAX l r col from_).2.1
          = ev ++ (loopChunkDeltas L DeltaAction.insert MAX l r col from_).map Event.change := by
  intro n
  induction n with
  | zero =>
    intro from_ col doc ev hn hna hnm hinv
    have hstop : ¬ ((from_ : Int) < l ∧ 2 ≤ MAX) := by
      rintro ⟨h1, -⟩
      omega
    rw [Document.splitLoop, dif_neg hstop, loopFinalFrom, dif_neg hstop,
      loopChunkDeltas, dif_neg hstop]
    refine ⟨hna, hnm, rfl, ?_, hinv, by simp⟩
    intro hlt
    exact hstop ⟨by omega, hM⟩
  | succ n ih =>
    intro from_ col doc ev hn hna hnm hinv
    by_cases hcond : (from_ : Int) < l ∧ 2 ≤ MAX
    · have hLlen : (MAX : Int) ≤ (L.length : Int) - (from_ : Int) := by omega
      have hwin : ((L.drop from_).take (from_ + (MAX - 1) - from_)).length = MAX - 1 := by
        simp
        omega
      have hchunk2 : 2 ≤ ((L.drop from_).take (from_ + (MAX - 1) - from_)
          ++ [([] : Line)]).length := by
        simp [hwin]
        omega
      rw [Document.splitLoop, dif_pos hcond, loopFinalFrom, dif_pos hcond,
        loopChunkDeltas, dif_pos hcond]
      dsimp only
      rw [applyDeltaNoChunk_insert_multi _ _ _ _ hchunk2]
      have hnext : SplitLoopInv D0.lines r c L (from_ + (MAX - 1)) 0
          (insLines doc.lines (r + from_) col
            ((L.drop from_).take (from_ + (MAX - 1) - from_) ++ [([] : Line)])) := by
        rcases hinv with ⟨hf0, hcol, hlines⟩ | ⟨hfpos, hflt, hcol, hlines⟩
        · subst hf0
          subst hcol
          rw [hlines]
          right
          refine ⟨by omega, by omega, rfl, ?_⟩
          simp only [Nat.zero_add, Nat.sub_zero, Nat.add_zero, List.drop_zero]
        · subst hcol
          rw [hlines]
          right
          refine ⟨by omega, by omega, rfl, ?_⟩
          have htkf : (L.take from_).length = from_ := length_take_of_le (by omega)
          have hcomp := insLines_comp D0.lines r c (L.take from_)
            ((L.drop from_).take (from_ + (MAX - 1) - from_) ++ [([] : Line)]) hr
            (by
              intro hnil
              have hnl := congrArg List.length hnil
              rw [htkf] at hnl
              simp at hnl
              omega)
            (by simp)
          rw [htkf] at hcomp
          rw [hcomp]
          congr 1
          rw [show from_ + (MAX - 1) - from_ = MAX - 1 from by omega, ← List.append_assoc,
            ← List.take_add]
      have hres := ih (from_ + (MAX - 1)) 0
        ⟨insLines doc.lines (r + from_) col
            ((L.drop from_).take (from_ + (MAX - 1) - from_) ++ [([] : Line)]),
          doc.autoNewLine, doc.newLineMode⟩
        (ev ++ [Event.change ⟨⟨r + from_, col⟩, ⟨r + (from_ + (MAX - 1)), 0⟩,
          DeltaAction.insert,
          (L.drop from_).take (from_ + (MAX - 1) - from_) ++ [([] : Line)]⟩])
        (by omega) hna hnm hnext
      refine ⟨hres.1, hres.2.1, hres.2.2.1, hres.2.2.2.1, hres.2.2.2.2.1, ?_⟩
      rw [hres.2.2.2.2.2]
      simp

    · rw [Document.splitLoop, dif_neg hcond, loopFinalFrom, dif_neg hcond,
        loopChunkDeltas, dif_neg hcond]
      refine ⟨hna, hnm, rfl, ?_, hinv, by simp⟩
      intro hlt
      exact hcond ⟨by omega, hM⟩

/-- The comparator returns zero exactly on equal points. -/
lemma comparePoints_eq_zero (p q : Pos) : comparePoints p q = 0 ↔ p = q := by
  obtain ⟨a, b⟩ := p
  obtain ⟨c, d⟩ := q
  simp only [comparePoints, Pos.mk.injEq]
  split
  · next h =>
    constructor
    · intro h0
      omega
    · rintro ⟨h1, h2⟩
      omega
  · next h =>
    constructor
    · intro h0
      omega
    · rintro ⟨h1, h2⟩
      omega

/-- Splicing in the no-op insert `[""]` leaves the lines unchanged. -/
lemma insLines_noop (D : List Line) (r c : Nat) (hr : r < D.length) :
    insLines D r c [([] : Line)] = D := by
  rw [insLines_single]
  simp only [List.append_nil]
  rw [List.take_append_drop, set_getD_self _ _ _ hr]

/-- Length of the lines after an insert splice. -/
lemma insLines_length (D : List Line) (r c : Nat) (L : List Line)
    (hr : r < D.length) (hL : L ≠ []) :
    (insLines D r c L).length = D.length + L.length - 1 := by
  rcases L with - | ⟨x, T⟩
  · exact absurd rfl hL
  rcases List.eq_nil_or_concat T with rfl | ⟨M, y, rfl⟩
  · rw [insLines_single]
    simp
  · simp only [List.concat_eq_append]
    rw [insLines_pair]
    simp
    omega

/-- Length of the lines after a same-row remove splice. -/
lemma remLines_length_same (D : List Line) (r c1 c2 : Nat) :
    (remLines D r c1 r c2).length = D.length := by
  rw [remLines_same]
  simp

/-- Length of the lines after a multi-row remove splice. -/
lemma remLines_length_multi (D : List Line) (r1 c1 r2 c2 : Nat)
    (h12 : r1 < r2) (hr2 : r2 < D.length) :
    (remLines D r1 c1 r2 c2).length = D.length - (r2 - r1) := by
  rw [remLines_multi _ _ _ _ _ (by omega)]
  simp
  omega

/-- Removing the freshly inserted span, with the end point exactly as
`insertMergedLines` computes it, restores the document. -/
lemma insLines_then_remLines (D : List Line) (r c : Nat) (L : List Line)
    (hr : r < D.length) (hc : c ≤ (D.getD r []).length) (hL : L ≠ []) :
    remLines (insLines D r c L) r c (r + L.length - 1)
      ((if L.length = 1 then c else 0) + (L.getLastD []).length) = D := by
  rcases L with - | ⟨x, T⟩
  · exact absurd rfl hL
  rcases List.eq_nil_or_concat T with rfl | ⟨M, y, rfl⟩
  · simp only [List.length_singleton, if_pos rfl]
    rw [show ([x] : List Line).getLastD [] = x from rfl]
    have : r + 1 - 1 = r := by omega
    rw [this]
    exact remLines_insLines_single D r c x hr hc
  · simp only [List.concat_eq_append]
    have hlen : (x :: (M ++ [y])).length = M.length + 2 := by simp
    have hlast : (x :: (M ++ [y])).getLastD [] = y := by
      rw [show x :: (M ++ [y]) = (x :: M) ++ [y] by simp, List.getLastD_concat]
    rw [hlen, hlast, if_neg (by omega),
      show r + (M.length + 2) - 1 = r + M.length + 1 from by omega, Nat.zero_add]
    exact remLines_insLines_pair D r c x y M hr hc

/-- The windows' real content (each chunk without its synthetic trailing
empty line) concatenated with the tail reproduces the inserted lines. -/
lemma loopChunkDeltas_flatten (L : List Line) (action : DeltaAction) (MAX : Nat)
    (l : Int) (row : Nat) :
    ∀ (n from_ col : Nat), (l - (from_ : Int)).toNat ≤ n →
      ((loopChunkDeltas L action MAX l row col from_).map
          (fun d => d.lines.dropLast)).flatten
        ++ L.drop (loopFinalFrom MAX l from_) = L.drop from_ := by
  intro n
  induction n with
  | zero =>
    intro from_ col hn
    have hstop : ¬ ((from_ : Int) < l ∧ 2 ≤ MAX) := by
      rintro ⟨h1, -⟩
      omega
    rw [loopChunkDeltas, dif_neg hstop, loopFinalFrom, dif_neg hstop]
    simp
  | succ n ih =>
    intro from_ col hn
    by_cases hcond : (from_ : Int) < l ∧ 2 ≤ MAX
    · rw [loopChunkDeltas, dif_pos hcond, loopFinalFrom, dif_pos hcond]
      simp only [List.map_cons, List.flatten_cons, List.dropLast_concat, List.append_assoc]
      rw [ih (from_ + (MAX - 1)) 0 (by omega)]
      rw [show from_ + (MAX - 1) - from_ = MAX - 1 from by omega]
      rw [show L.drop (from_ + (MAX - 1)) = (L.drop from_).drop (MAX - 1) from by
        rw [List.drop_drop]]
      exact List.take_append_drop _ _
    · rw [loopChunkDeltas, dif_neg hcond, loopFinalFrom, dif_neg hcond]
      simp

/-- Applied to a valid oversized insert, the chunking path produces exactly
the lines of a single unchunked splice, preserves the newline fields, and
mutates the caller's delta to the remaining tail. -/
lemma splitAndapplyLargeDelta_spec (doc : Document) (s e : Pos) (L : List Line)
    (MAX : Nat) (hM : 2 ≤ MAX) (hbig : MAX < L.length)
    (hr : s.row < doc.lines.length)
    (hc : s.column ≤ (doc.lines.getD s.row []).length) :
    (doc.splitAndapplyLargeDelta ⟨s, e, DeltaAction.insert, L⟩ MAX).doc.lines
        = insLines doc.lines s.row s.column L
    ∧ (doc.splitAndapplyLargeDelta ⟨s, e, DeltaAction.insert, L⟩ MAX).doc.autoNewLine
        = doc.autoNewLine
    ∧ (doc.splitAndapplyLargeDelta ⟨s, e, DeltaAction.insert, L⟩ MAX).doc.newLineMode
        = doc.newLineMode
    ∧ (doc.splitAndapplyLargeDelta ⟨s, e, DeltaAction.insert, L⟩ MAX).delta
        = ⟨⟨s.row + loopFinalFrom MAX ((L.length : Int) - MAX + 1) 0, 0⟩, e,
            DeltaAction.insert,
            L.drop (loopFinalFrom MAX ((L.length : Int) - MAX + 1) 0)⟩
    ∧ 0 < loopFinalFrom MAX ((L.length : Int) - MAX + 1) 0
    ∧ loopFinalFrom MAX ((L.length : Int) - MAX + 1) 0 < L.length
    ∧ (L.length : Int) - loopFinalFrom MAX ((L.length : Int) - MAX + 1) 0
        ≤ (MAX : Int) - 1 := by
  set l : Int := (L.length : Int) - MAX + 1 with hldef
  have hl2 : (2 : Int) ≤ l := by omega
  have hspec := splitLoop_spec L MAX l (by omega) hM doc s.row s.column hr
    (l - 0).toNat 0 s.column doc [] (by omega) rfl rfl (Or.inl ⟨rfl, rfl, rfl⟩)
  set res := doc.splitLoop [] L DeltaAction.insert MAX l s.row s.column 0 with hres
  set fF := loopFinalFrom MAX l 0 with hfF
  obtain ⟨hna, hnm, hfrom, hnotlt, hinv, -⟩ := hspec
  have hfFl : l ≤ (fF : Int) := by omega
  rcases hinv with ⟨hf0, -, -⟩ | ⟨hfpos, hflt, hcol, hlines⟩
  · exfalso
    rw [hf0] at hnotlt
    exact hnotlt (by omega)
  have hTne : L.drop fF ≠ [] := by
    intro hnil
    have := congrArg List.length hnil
    simp at this
    omega
  have htkne : L.take fF ≠ [] := by
    intro hnil
    have := congrArg List.length hnil
    rw [length_take_of_le (by omega)] at this
    simp at this
    omega
  have hbounds : 0 < fF ∧ fF < L.length ∧ (L.length : Int) - fF ≤ (MAX : Int) - 1 := by
    refine ⟨hfpos, hflt, by omega⟩
  rw [Document.splitAndapplyLargeDelta]
  dsimp only
  rw [← hres, hfrom, hcol]
  by_cases hnoop : (L.drop fF).length ≤ 1 ∧ (L.drop fF).getD 0 [] = []
  · -- The tail is the single empty line: the final applyDelta is a no-op,
    -- and the synthetic terminator of the last window already is the tail.
    have hT : L.drop fF = [([] : Line)] := by
      rcases hdrop : L.drop fF with - | ⟨t0, T2⟩
      · exact absurd hdrop hTne
      rcases hnoop with ⟨hn1, hn2⟩
      rw [hdrop] at hn1 hn2
      simp at hn1
      simp at hn2
      rw [hn1, hn2]
    have happ : res.1.applyDeltaNoChunk
        ⟨⟨s.row + fF, 0⟩, e, DeltaAction.insert, L.drop fF⟩
        = ⟨res.1, [], ⟨⟨s.row + fF, 0⟩, e, DeltaAction.insert, L.drop fF⟩⟩ := by
      rw [hT]
      exact applyDeltaNoChunk_insert_noop _ _ _
    rw [happ]
    refine ⟨?_, hna, hnm, rfl, hbounds.1, hbounds.2.1, hbounds.2.2⟩
    rw [hlines]
    congr 1
    rw [← hT, List.take_append_drop]
  · have hT2 : L.drop fF ≠ [([] : Line)] := by
      intro hx
      apply hnoop
      rw [hx]
      exact ⟨by simp, rfl⟩
    have happ : res.1.applyDeltaNoChunk
        ⟨⟨s.row + fF, 0⟩, e, DeltaAction.insert, L.drop fF⟩
        = ⟨{ res.1 with lines := insLines res.1.lines (s.row + fF) 0 (L.drop fF) },
            [Event.change ⟨⟨s.row + fF, 0⟩, e, DeltaAction.insert, L.drop fF⟩],
            ⟨⟨s.row + fF, 0⟩, e, DeltaAction.insert, L.drop fF⟩⟩ := by
      rw [Document.applyDeltaNoChunk]
      rw [if_neg hnoop]
      rfl
    rw [happ]
    refine ⟨?_, hna, hnm, rfl, hbounds.1, hbounds.2.1, hbounds.2.2⟩
    simp only
    rw [hlines]
    have htkf : (L.take fF).length = fF := length_take_of_le (by omega)
    have hcomp := insLines_comp doc.lines s.row s.column (L.take fF) (L.drop fF)
      hr htkne hTne
    rw [htkf] at hcomp
    rw [hcomp, List.take_append_drop]

/-- On a valid insert delta, `applyDelta` produces exactly the lines of
the single unchunked splice — whether or not the chunking path is taken —
and preserves the newline fields. -/
lemma applyDelta_insert_spec (doc : Document) (s e : Pos) (L : List Line) (dnv : Bool)
    (hr : s.row < doc.lines.length)
    (hc : s.column ≤ (doc.lines.getD s.row []).length)
    (hL : L ≠ []) :
    (doc.applyDelta ⟨s, e, DeltaAction.insert, L⟩ dnv).doc.lines
        = insLines doc.lines s.row s.column L
    ∧ (doc.applyDelta ⟨s, e, DeltaAction.insert, L⟩ dnv).doc.autoNewLine
        = doc.autoNewLine
    ∧ (doc.applyDelta ⟨s, e, DeltaAction.insert, L⟩ dnv).doc.newLineMode
        = doc.newLineMode := by
  rw [Document.applyDelta]
  by_cases hnoop : L.length ≤ 1 ∧ L.getD 0 [] = []
  · have hL1 : L = [([] : Line)] := by
      rcases hLs : L with - | ⟨x, T⟩
      · exact absurd hLs hL
      rcases hnoop with ⟨hn1, hn2⟩
      rw [hLs] at hn1 hn2
      simp at hn1
      simp at hn2
      rw [hn1, hn2]
    rw [if_pos hnoop]
    refine ⟨?_, rfl, rfl⟩
    rw [hL1, insLines_noop _ _ _ hr]
  · rw [if_neg hnoop]
    by_cases hbig : 20000 < L.length
    · rw [if_pos hbig]
      have hspec := splitAndapplyLargeDelta_spec doc s e L 20000 (by omega) hbig hr hc
      exact ⟨hspec.1, hspec.2.1, hspec.2.2.1⟩
    · rw [if_neg hbig]
      exact ⟨rfl, rfl, rfl⟩

/-- Below the chunking threshold, `applyDelta` does not mutate the caller's
insert delta. -/
lemma applyDelta_insert_delta_small (doc : Document) (s e : Pos) (L : List Line)
    (dnv : Bool) (hsmall : L.length ≤ 20000) :
    (doc.applyDelta ⟨s, e, DeltaAction.insert, L⟩ dnv).delta
        = ⟨s, e, DeltaAction.insert, L⟩ := by
  rw [Document.applyDelta]
  by_cases hnoop : L.length ≤ 1 ∧ L.getD 0 [] = []
  · rw [if_pos hnoop]
  · rw [if_neg hnoop, if_neg (by
      intro hb
      have hb2 : 20000 < L.length := hb
      omega)]

/-- On a remove delta whose start row is inside the document, `applyDelta`
produces exactly the lines of the remove splice, preserves the newline
fields, and never mutates the caller's delta. -/
lemma applyDelta_remove_spec (doc : Document) (s e : Pos) (L : List Line) (dnv : Bool)
    (hr : s.row < doc.lines.length) :
    (doc.applyDelta ⟨s, e, DeltaAction.remove, L⟩ dnv).doc.lines
        = remLines doc.lines s.row s.column e.row e.column
    ∧ (doc.applyDelta ⟨s, e, DeltaAction.remove, L⟩ dnv).doc.autoNewLine
        = doc.autoNewLine
    ∧ (doc.applyDelta ⟨s, e, DeltaAction.remove, L⟩ dnv).doc.newLineMode
        = doc.newLineMode
    ∧ (doc.applyDelta ⟨s, e, DeltaAction.remove, L⟩ dnv).delta
        = ⟨s, e, DeltaAction.remove, L⟩ := by
  rw [Document.applyDelta]
  by_cases hnoop : comparePoints s e = 0
  · have hse : s = e := (comparePoints_eq_zero s e).mp hnoop
    rw [if_pos hnoop]
    refine ⟨?_, rfl, rfl, rfl⟩
    subst hse
    rw [remLines_same, List.take_append_drop, set_getD_self _ _ _ hr]
  · rw [if_neg hnoop]
    exact ⟨rfl, rfl, rfl, rfl⟩

/-- `getAllLines` is the whole lines array. -/
lemma getAllLines_eq (doc : Document) : doc.getAllLines = doc.lines := by
  rw [Document.getAllLines, Document.getLines, Document.getLength]
  rw [List.drop_zero, Nat.sub_zero]
  exact List.take_of_length_le (by omega)

/-- Documents with equal states have equal values. -/
lemma getValue_congr (doc1 doc2 : Document) (h1 : doc1.lines = doc2.lines)
    (h2 : doc1.autoNewLine = doc2.autoNewLine) (h3 : doc1.newLineMode = doc2.newLineMode) :
    doc1.getValue = doc2.getValue := by
  obtain ⟨a1, b1, c1⟩ := doc1
  obtain ⟨a2, b2, c2⟩ := doc2
  simp only at h1 h2 h3
  rw [h1, h2, h3]

/-- The loop's final `from` and `column`, independently of the document
contents. -/
lemma splitLoop_from_col (L : List Line) (action : DeltaAction) (MAX : Nat) (l : Int)
    (row : Nat) :
    ∀ (n from_ col : Nat) (doc : Document) (ev : List Event),
      (l - (from_ : Int)).toNat ≤ n →
      (doc.splitLoop ev L action MAX l row col from_).2.2.1 = loopFinalFrom MAX l from_
      ∧ (doc.splitLoop ev L action MAX l row col from_).2.2.2
          = (if (from_ : Int) < l ∧ 2 ≤ MAX then 0 else col) := by
  intro n
  induction n with
  | zero =>
    intro from_ col doc ev hn
    have hstop : ¬ ((from_ : Int) < l ∧ 2 ≤ MAX) := by
      rintro ⟨h1, -⟩
      omega
    rw [Document.splitLoop, dif_neg hstop, loopFinalFrom, dif_neg hstop, if_neg hstop]
    exact ⟨rfl, rfl⟩
  | succ n ih =>
    intro from_ col doc ev hn
    by_cases hcond : (from_ : Int) < l ∧ 2 ≤ MAX
    · rw [Document.splitLoop, dif_pos hcond, loopFinalFrom, dif_pos hcond, if_pos hcond]
      dsimp only
      have hres := ih (from_ + (MAX - 1)) 0
        (doc.applyDeltaNoChunk ⟨⟨row + from_, col⟩, ⟨row + (from_ + (MAX - 1)), 0⟩, action,
          (L.drop from_).take (from_ + (MAX - 1) - from_) ++ [([] : Line)]⟩).doc
        (ev ++ (doc.applyDeltaNoChunk ⟨⟨row + from_, col⟩,
          ⟨row + (from_ + (MAX - 1)), 0⟩, action,
          (L.drop from_).take (from_ + (MAX - 1) - from_) ++ [([] : Line)]⟩).events)
        (by omega)
      refine ⟨hres.1, ?_⟩
      rw [hres.2]
      split <;> rfl
    · rw [Document.splitLoop, dif_neg hcond, loopFinalFrom, dif_neg hcond, if_neg hcond]
      exact ⟨rfl, rfl⟩

/-- Bounds on the loop's final offset. -/
lemma loopFinalFrom_bounds (MAX : Nat) (l : Int) (hM : 2 ≤ MAX) :
    ∀ (n from_ : Nat), (l - (from_ : Int)).toNat ≤ n →
      from_ ≤ loopFinalFrom MAX l from_
      ∧ ¬ ((loopFinalFrom MAX l from_ : Int) < l)
      ∧ ((loopFinalFrom MAX l from_ : Int) ≤ l + ((MAX : Int) - 2)
          ∨ loopFinalFrom MAX l from_ = from_) := by
  intro n
  induction n with
  | zero =>
    intro from_ hn
    have hstop : ¬ ((from_ : Int) < l ∧ 2 ≤ MAX) := by
      rintro ⟨h1, -⟩
      omega
    rw [loopFinalFrom, dif_neg hstop]
    refine ⟨le_refl _, ?_, Or.inr rfl⟩
    intro hlt
    exact hstop ⟨hlt, hM⟩
  | succ n ih =>
    intro from_ hn
    by_cases hcond : (from_ : Int) < l ∧ 2 ≤ MAX
    · rw [loopFinalFrom, dif_pos hcond]
      have hres := ih (from_ + (MAX - 1)) (by omega)
      refine ⟨by omega, hres.2.1, ?_⟩
      rcases hres.2.2 with h | h
      · exact Or.inl h
      · left
        rw [h]
        push_cast
        omega
    · rw [loopFinalFrom, dif_neg hcond]
      refine ⟨le_refl _, ?_, Or.inr rfl⟩
      intro hlt
      exact hcond ⟨hlt, hM⟩

/-- `$safeApplyDelta` applies the delta when the bounds fit. -/
lemma safeApplyDelta_fits (doc : Document) (d : Delta)
    (h : (d.action = DeltaAction.remove ∧ d.start.row < doc.lines.length
        ∧ d.stop.row < doc.lines.length)
      ∨ (d.action = DeltaAction.insert ∧ d.start.row ≤ doc.lines.length)) :
    doc.safeApplyDelta d = doc.applyDelta d false := by
  rw [Document.safeApplyDelta, if_pos h]

/-- `$safeApplyDelta` silently discards a stale delta. -/
lemma safeApplyDelta_stale (doc : Document) (d : Delta)
    (h : ¬ ((d.action = DeltaAction.remove ∧ d.start.row < doc.lines.length
        ∧ d.stop.row < doc.lines.length)
      ∨ (d.action = DeltaAction.insert ∧ d.start.row ≤ doc.lines.length))) :
    doc.safeApplyDelta d = ⟨doc, [], d⟩ := by
  rw [Document.safeApplyDelta, if_neg h]

/-- A small sample document, used by witnesses. -/
def sampleDoc : Document := ⟨[['a', 'b'], ['c', 'd']], [], NewLineMode.auto⟩

/-- An oversized insert delta (20001 empty lines at the origin), used by
witnesses and the C1 counterexample. -/
def bigInsertDelta : Delta :=
  ⟨⟨0, 0⟩, ⟨20000, 0⟩, DeltaAction.insert, List.replicate 20001 ([] : Line)⟩

/-- A one-line document, used by witnesses and the C1 counterexample. -/
def emptyDoc : Document := ⟨[[]], [], NewLineMode.auto⟩

/-! ### Claim C7 -/

/-- C7: an insert whose lines are exactly one empty string, and a remove
whose start equals its end under the row-then-column comparator, make
`applyDelta` perform no mutation of the line store and emit no `"change"`
notification. -/
theorem C7_noop_guard (doc : Document) (s e : Pos) (L : List Line) (dnv : Bool) :
    ((doc.applyDelta ⟨s, e, DeltaAction.insert, [([] : Line)]⟩ dnv).doc = doc
      ∧ (doc.applyDelta ⟨s, e, DeltaAction.insert, [([] : Line)]⟩ dnv).events = [])
    ∧ (comparePoints s e = 0 →
        (doc.applyDelta ⟨s, e, DeltaAction.remove, L⟩ dnv).doc = doc
        ∧ (doc.applyDelta ⟨s, e, DeltaAction.remove, L⟩ dnv).events = []) := by
  constructor
  · rw [Document.applyDelta, if_pos ⟨by simp, rfl⟩]
    exact ⟨rfl, rfl⟩
  · intro h
    rw [Document.applyDelta, if_pos h]
    exact ⟨rfl, rfl⟩

/-- Witness for C7 at a concrete document and point. -/
theorem C7_noop_guard_witness :
    (sampleDoc.applyDelta ⟨⟨0, 1⟩, ⟨0, 1⟩, DeltaAction.remove, [['x']]⟩ false).doc
        = sampleDoc
    ∧ (sampleDoc.applyDelta ⟨⟨0, 1⟩, ⟨0, 1⟩, DeltaAction.remove, [['x']]⟩ false).events
        = [] :=
  (C7_noop_guard sampleDoc ⟨0, 1⟩ ⟨0, 1⟩ [['x']] false).2 (by norm_num [comparePoints])

/-! ### Claim C8 -/

/-- C8: when a delta's rows no longer fit the current document (a remove
with either row at or past the line count, or an insert with its start row
past the line count), `$safeApplyDelta` leaves the document unchanged and
emits nothing; when the rows fit, it applies the delta normally. -/
theorem C8_safe_apply_delta (doc : Document) (d : Delta) :
    (((d.action = DeltaAction.remove
          ∧ (doc.lines.length ≤ d.start.row ∨ doc.lines.length ≤ d.stop.row))
        ∨ (d.action = DeltaAction.insert ∧ doc.lines.length < d.start.row)) →
      (doc.safeApplyDelta d).doc = doc ∧ (doc.safeApplyDelta d).events = [])
    ∧ (((d.action = DeltaAction.remove ∧ d.start.row < doc.lines.length
          ∧ d.stop.row < doc.lines.length)
        ∨ (d.action = DeltaAction.insert ∧ d.start.row ≤ doc.lines.length)) →
      doc.safeApplyDelta d = doc.applyDelta d false) := by
  constructor
  · intro hstale
    rw [safeApplyDelta_stale]
    · exact ⟨rfl, rfl⟩
    · rintro (⟨har, h1, h2⟩ | ⟨hai, h3⟩)
      · rcases hstale with ⟨-, hrow⟩ | ⟨hai2, -⟩
        · omega
        · rw [har] at hai2
          exact absurd hai2 (by simp)
      · rcases hstale with ⟨har2, -⟩ | ⟨-, hrow⟩
        · rw [hai] at har2
          exact absurd har2 (by simp)
        · omega
  · exact safeApplyDelta_fits doc d

/-- Witness for C8: a stale remove is discarded, a fitting remove is
applied. -/
theorem C8_safe_apply_delta_witness :
    ((sampleDoc.safeApplyDelta ⟨⟨0, 0⟩, ⟨5, 0⟩, DeltaAction.remove, [[]]⟩).doc = sampleDoc
      ∧ (sampleDoc.safeApplyDelta ⟨⟨0, 0⟩, ⟨5, 0⟩, DeltaAction.remove, [[]]⟩).events = [])
    ∧ sampleDoc.safeApplyDelta ⟨⟨0, 0⟩, ⟨1, 0⟩, DeltaAction.remove, [[], []]⟩
        = sampleDoc.applyDelta ⟨⟨0, 0⟩, ⟨1, 0⟩, DeltaAction.remove, [[], []]⟩ false :=
  ⟨(C8_safe_apply_delta sampleDoc ⟨⟨0, 0⟩, ⟨5, 0⟩, DeltaAction.remove, [[]]⟩).1
      (Or.inl ⟨rfl, Or.inr (by norm_num [sampleDoc])⟩),
    (C8_safe_apply_delta sampleDoc ⟨⟨0, 0⟩, ⟨1, 0⟩, DeltaAction.remove, [[], []]⟩).2
      (Or.inl ⟨rfl, by norm_num [sampleDoc], by norm_num [sampleDoc]⟩)⟩

/-! ### Claim C10 -/

/-- C10: `revertDelta` never mutates the delta it is given: the inverse is
built from copies of its start, end and lines, so the caller's delta holds
identical fields after the call, whether the revert was applied or
discarded as stale.  In this embedding the value a caller's object holds
after the call is the `delta` field of the result. -/
theorem C10_revert_delta_no_mutation (doc : Document) (d : Delta) :
    (doc.revertDelta d).delta = d := rfl

/-! ### Claim C9 -/

/-- C9: an insert of more than 20000 lines mutates the caller's delta
object: afterwards its lines are only the final tail chunk (fewer than
20000 lines, the last `k` lines of the original insert for some positive
`k`), and its start has been advanced to the tail's start position with
column zero. -/
theorem C9_large_insert_mutates_delta (doc : Document) (d : Delta)
    (ha : d.action = DeltaAction.insert) (hbig : 20000 < d.lines.length) :
    ∃ k, 0 < k ∧ k < d.lines.length ∧ d.lines.length - k < 20000
      ∧ (doc.applyDelta d false).delta
          = ⟨⟨d.start.row + k, 0⟩, d.stop, DeltaAction.insert, d.lines.drop k⟩ := by
  obtain ⟨s, e, a, L⟩ := d
  simp only at ha hbig
  subst ha
  set l : Int := (L.length : Int) - ((20000 : Nat) : Int) + 1 with hldef
  have hl2 : (2 : Int) ≤ l := by omega
  have hfc := splitLoop_from_col L DeltaAction.insert 20000 l s.row
    (l - 0).toNat 0 s.column doc [] (by omega)
  have hbounds := loopFinalFrom_bounds 20000 l (by omega) (l - 0).toNat 0 (by omega)
  set fF := loopFinalFrom 20000 l 0 with hfF
  have hfpos : 0 < fF := by
    rcases Nat.eq_zero_or_pos fF with h0 | hpos
    · exfalso
      apply hbounds.2.1
      rw [h0]
      omega
    · exact hpos
  have hflt : fF < L.length := by
    rcases hbounds.2.2 with h | h
    · omega
    · exfalso
      rw [h] at hbounds
      exact hbounds.2.1 (by omega)
  refine ⟨fF, hfpos, hflt, by show L.length - fF < 20000; omega, ?_⟩
  rw [Document.applyDelta]
  rw [if_neg (by
    rintro ⟨h1, -⟩
    have h1x : L.length ≤ 1 := h1
    omega)]
  rw [if_pos (by exact hbig)]
  rw [Document.splitAndapplyLargeDelta]
  dsimp only
  rw [← hldef, hfc.1, hfc.2, if_pos ⟨by omega, by omega⟩]

/-- Witness for C9 at the 20001-line insert into the one-line document. -/
theorem C9_large_insert_mutates_delta_witness :
    ∃ k, 0 < k ∧ k < bigInsertDelta.lines.length
      ∧ bigInsertDelta.lines.length - k < 20000
      ∧ (emptyDoc.applyDelta bigInsertDelta false).delta
          = ⟨⟨bigInsertDelta.start.row + k, 0⟩, bigInsertDelta.stop, DeltaAction.insert,
              bigInsertDelta.lines.drop k⟩ :=
  C9_large_insert_mutates_delta emptyDoc bigInsertDelta rfl
    (by norm_num [bigInsertDelta])

/-! ### Claim C1 -/

/-- Validity of a delta against a document: what the splice primitive's
validation enforces (spec section 7 — both endpoints inside the document
and the row span and end column consistent with the line array), together
with the data-model requirement that a remove's lines hold the exact
current content of its range (spec section 3). -/
def WellFormedDelta (doc : Document) (d : Delta) : Prop :=
  d.start.row < doc.lines.length
  ∧ d.start.column ≤ (doc.lines.getD d.start.row []).length
  ∧ d.lines ≠ []
  ∧ d.stop.row = d.start.row + d.lines.length - 1
  ∧ (match d.action with
     | DeltaAction.insert =>
        d.stop.column = (if d.lines.length = 1 then d.start.column else 0)
          + (d.lines.getLastD []).length
     | DeltaAction.remove =>
        d.stop.row < doc.lines.length
        ∧ d.stop.column ≤ (doc.lines.getD d.stop.row []).length
        ∧ (d.lines.length = 1 → d.start.column ≤ d.stop.column)
        ∧ d.lines = doc.getLinesForRange d.start d.stop)

/-- The merged line at the start row of a multi-row remove splice. -/
lemma remLines_getD_start (D : List Line) (r1 c1 r2 c2 : Nat) (hne : r1 ≠ r2)
    (hr1 : r1 < D.length) :
    (remLines D r1 c1 r2 c2).getD r1 []
      = (D.getD r1 []).take c1 ++ (D.getD r2 []).drop c2 := by
  have ht : (D.take r1).length = r1 := by simp; omega
  rw [remLines_multi _ _ _ _ _ hne, getD_append_right _ _ _ _ (le_of_eq ht), ht,
    Nat.sub_self]
  rfl

/-- C1 (amended): for a well-formed delta that is not an insert of more
than 20000 lines, applying it via `applyDelta` and immediately calling
`revertDelta` on the caller's delta restores the previous `getValue()`
exactly.  (An oversized insert is excluded: the chunking path mutates the
caller's delta, so the immediate revert would undo only its final tail —
see the counterexample.) -/
theorem C1_inverse_law (doc : Document) (d : Delta)
    (hwf : WellFormedDelta doc d)
    (hsmall : d.action = DeltaAction.insert → d.lines.length ≤ 20000) :
    ((doc.applyDelta d false).doc.revertDelta
        (doc.applyDelta d false).delta).doc.getValue = doc.getValue := by
  obtain ⟨⟨sr, sc⟩, ⟨er, ec⟩, a, L⟩ := d
  obtain ⟨hr, hc, hL, hrow, hact⟩ := hwf
  simp only at hr hc hL hrow hact hsmall
  have hL1 : 1 ≤ L.length := List.length_pos.mpr hL
  cases a with
  | insert =>
    have hsmall2 : L.length ≤ 20000 := hsmall rfl
    have happly := applyDelta_insert_spec doc ⟨sr, sc⟩ ⟨er, ec⟩ L false hr hc hL
    have hdelta := applyDelta_insert_delta_small doc ⟨sr, sc⟩ ⟨er, ec⟩ L false hsmall2
    rw [hdelta]
    set applied := (doc.applyDelta ⟨⟨sr, sc⟩, ⟨er, ec⟩, DeltaAction.insert, L⟩ false).doc
      with happdef
    have hlen : applied.lines.length = doc.lines.length + L.length - 1 := by
      rw [happly.1]
      exact insLines_length _ _ _ _ hr hL
    rw [Document.revertDelta]
    simp only [Document.clonePos, List.drop_zero, reduceIte]
    rw [safeApplyDelta_fits _ _ (Or.inl ⟨rfl,
      by show sr < applied.lines.length; rw [hlen]; omega,
      by show er < applied.lines.length; rw [hlen]; omega⟩)]
    have hrev := applyDelta_remove_spec applied ⟨sr, sc⟩ ⟨er, ec⟩ L false
      (by show sr < applied.lines.length; rw [hlen]; omega)
    refine getValue_congr _ _ ?_ ?_ ?_
    · rw [hrev.1, happly.1, hrow, hact]
      exact insLines_then_remLines doc.lines sr sc L hr hc hL
    · rw [hrev.2.1, happly.2.1]
    · rw [hrev.2.2.1, happly.2.2]
  | remove =>
    obtain ⟨hstopr, hstopc, hsame, hcontent⟩ := hact
    have happly := applyDelta_remove_spec doc ⟨sr, sc⟩ ⟨er, ec⟩ L false hr
    rw [happly.2.2.2]
    set applied := (doc.applyDelta ⟨⟨sr, sc⟩, ⟨er, ec⟩, DeltaAction.remove, L⟩ false).doc
      with happdef
    have hsrer : sr ≤ er := by omega
    have happlines : applied.lines = remLines doc.lines sr sc er ec := happly.1
    have hlen : sr < applied.lines.length := by
      rw [happlines]
      rcases Nat.eq_or_lt_of_le hsrer with heq | hlt
      · subst heq
        rw [remLines_length_same]
        omega
      · rw [remLines_length_multi _ _ _ _ _ hlt hstopr]
        omega
    rw [Document.revertDelta]
    simp only [Document.clonePos, List.drop_zero, reduceIte]
    rw [if_neg (show ¬ (DeltaAction.remove = DeltaAction.insert) from by decide)]
    rw [safeApplyDelta_fits _ _ (Or.inr ⟨rfl,
      by show sr ≤ applied.lines.length; omega⟩)]
    have hcins : sc ≤ (applied.lines.getD sr []).length := by
      rw [happlines]
      rcases Nat.eq_or_lt_of_le hsrer with heq | hlt
      · subst heq
        rw [remLines_same, getD_set_self _ _ _ _ hr]
        rw [List.length_append, length_take_of_le hc]
        omega
      · rw [remLines_getD_start _ _ _ _ _ (by omega) hr]
        rw [List.length_append, length_take_of_le hc]
        omega
    have hrev := applyDelta_insert_spec applied ⟨sr, sc⟩ ⟨er, ec⟩ L false hlen hcins hL
    refine getValue_congr _ _ ?_ ?_ ?_
    · rw [hrev.1, happlines]
      rcases Nat.eq_or_lt_of_le hsrer with heq | hlt
      · subst heq
        have hL1a : L.length = 1 := by omega
        have hscec : sc ≤ ec := hsame hL1a
        have hLval : L = [((doc.lines.getD sr []).take ec).drop sc] := by
          rw [hcontent]
          exact getLinesForRange_same doc sr sc ec hscec
        rw [hLval]
        exact insLines_remLines_same doc.lines sr sc ec hr hscec hstopc
      · have hLval : L = (doc.lines.getD sr []).drop sc
            :: (((doc.lines.drop (sr + 1)).take (er - sr - 1))
              ++ [(doc.lines.getD er []).take ec]) := by
          rw [hcontent]
          exact getLinesForRange_multi doc sr sc er ec hlt hstopr
        rw [hLval]
        exact insLines_remLines_multi doc.lines sr sc er ec hlt hstopr hc hstopc
    · rw [hrev.2.1, happly.2.1]
    · rw [hrev.2.2, happly.2.2.1]

/-! ### Claim C2 -/

/-- C2: applying an oversized insert through the chunking path
`$splitAndapplyLargeDelta` leaves the line store in exactly the state a
single unchunked splice of the whole delta would produce, and the
concatenation of the emitted chunks' real content — each loop window
without its synthetic trailing empty line, followed by the final tail —
reproduces exactly the original inserted lines. -/
theorem C2_chunking_equivalence (doc : Document) (d : Delta)
    (ha : d.action = DeltaAction.insert)
    (hbig : 20000 < d.lines.length)
    (hr : d.start.row < doc.lines.length)
    (hc : d.start.column ≤ (doc.lines.getD d.start.row []).length) :
    (doc.splitAndapplyLargeDelta d 20000).doc.lines = spliceLines doc.lines d
    ∧ ((loopChunkDeltas d.lines d.action 20000 ((d.lines.length : Int) - 20000 + 1)
          d.start.row d.start.column 0).map (fun w => w.lines.dropLast)).flatten
        ++ d.lines.drop
            (loopFinalFrom 20000 ((d.lines.length : Int) - 20000 + 1) 0)
        = d.lines := by
  obtain ⟨s, e, a, L⟩ := d
  simp only at ha hbig hr hc
  subst ha
  have hspec := splitAndapplyLargeDelta_spec doc s e L 20000 (by omega) hbig hr hc
  constructor
  · rw [hspec.1]
    rfl
  · exact loopChunkDeltas_flatten L DeltaAction.insert 20000
      ((L.length : Int) - 20000 + 1) s.row
      (((L.length : Int) - 20000 + 1) - 0).toNat 0 s.column (by omega)

/-- Witness for C2 at the 20001-line insert into the one-line document. -/
theorem C2_chunking_equivalence_witness :
    (emptyDoc.splitAndapplyLargeDelta bigInsertDelta 20000).doc.lines
        = spliceLines emptyDoc.lines bigInsertDelta
    ∧ ((loopChunkDeltas bigInsertDelta.lines bigInsertDelta.action 20000
          ((bigInsertDelta.lines.length : Int) - 20000 + 1)
          bigInsertDelta.start.row bigInsertDelta.start.column 0).map
          (fun w => w.lines.dropLast)).flatten
        ++ bigInsertDelta.lines.drop
            (loopFinalFrom 20000 ((bigInsertDelta.lines.length : Int) - 20000 + 1) 0)
        = bigInsertDelta.lines :=
  C2_chunking_equivalence emptyDoc bigInsertDelta rfl
    (by norm_num [bigInsertDelta])
    (by norm_num [bigInsertDelta, emptyDoc])
    (by norm_num [bigInsertDelta, emptyDoc])

/-- The newline character is never empty. -/
lemma getNewLineCharacter_ne_nil (doc : Document) : doc.getNewLineCharacter ≠ [] := by
  rw [Document.getNewLineCharacter]
  cases doc.newLineMode with
  | windows => simp
  | unix => simp
  | auto =>
    by_cases h : doc.autoNewLine = []
    · rw [if_pos h]
      simp
    · rw [if_neg h]
      exact h

/-- Walking back a row-prefix sum through `idxPosLoop` recovers the
position. -/
lemma idxPosLoop_inverts_sum (lines : List Line) (nl : Nat) (hnl : 1 ≤ nl)
    (lastRowIdx : Nat) (lastLine : Line) :
    ∀ (n i r c : Nat), r - i ≤ n → i ≤ r → r < lines.length →
      c ≤ (lines.getD r []).length →
      Document.idxPosLoop nl lastRowIdx lastLine (lines.drop i) i
        ((((((lines.drop i).take (r - i)).map (fun li => li.length + nl)).sum + c : Nat) : Int))
        = (r, (c : Int)) := by
  intro n
  induction n with
  | zero =>
    intro i r c hn hir hr hc
    have hieq : i = r := by omega
    subst hieq
    rw [Nat.sub_self, List.take_zero, List.map_nil, List.sum_nil, Nat.zero_add]
    rw [← getD_cons_drop lines i [] hr]
    rw [Document.idxPosLoop]
    rw [if_pos (by push_cast; omega)]
    congr 1
    push_cast
    omega
  | succ n ih =>
    intro i r c hn hir hr hc
    rcases Nat.eq_or_lt_of_le hir with hieq | hilt
    · subst hieq
      rw [Nat.sub_self, List.take_zero, List.map_nil, List.sum_nil, Nat.zero_add]
      rw [← getD_cons_drop lines i [] hr]
      rw [Document.idxPosLoop]
      rw [if_pos (by push_cast; omega)]
      congr 1
      push_cast
      omega
    · have hdrop : lines.drop i = lines.getD i [] :: lines.drop (i + 1) :=
        (getD_cons_drop lines i [] (by omega)).symm
      rw [hdrop]
      have hri : r - i = (r - (i + 1)) + 1 := by omega
      rw [hri, List.take_succ_cons, List.map_cons, List.sum_cons, Nat.add_assoc]
      rw [Document.idxPosLoop]
      set S : Nat := (((lines.drop (i + 1)).take (r - (i + 1))).map
        (fun li => li.length + nl)).sum with hS
      have hsub : ((((lines.getD i []).length + nl) + (S + c) : Nat) : Int)
          - ((((lines.getD i []).length + nl : Nat)) : Int) = ((S + c : Nat) : Int) := by
        push_cast
        ring
      rw [if_neg (by rw [hsub]; exact not_lt.mpr (Int.natCast_nonneg _))]
      rw [hsub]
      exact ih (i + 1) r c (by omega) (by omega) hr hc

/-! ### Claim C5 -/

/-- C5: for an in-bounds position (row inside the line store, column at
most that line's length), `indexToPosition` inverts `positionToIndex`,
the newline-character length being the same for both calls on the
unchanged document. -/
theorem C5_index_position_inverse (doc : Document) (p : Pos)
    (hr : p.row < doc.lines.length)
    (hc : p.column ≤ (doc.lines.getD p.row []).length) :
    doc.indexToPosition ((doc.positionToIndex p 0 : Nat) : Int) 0
      = (p.row, (p.column : Int)) := by
  have hnl : 1 ≤ doc.getNewLineCharacter.length :=
    List.length_pos.mpr (getNewLineCharacter_ne_nil doc)
  rw [Document.indexToPosition, Document.positionToIndex]
  rw [show min p.row doc.lines.length = p.row from by omega]
  exact idxPosLoop_inverts_sum doc.lines doc.getNewLineCharacter.length hnl
    (doc.lines.length - 1) (doc.lines.getD (doc.lines.length - 1) [])
    (p.row - 0) 0 p.row p.column (le_refl _) (by omega) hr hc

/-- Witness for C5 at row 1, column 1 of the sample document. -/
theorem C5_index_position_inverse_witness :
    sampleDoc.indexToPosition ((sampleDoc.positionToIndex ⟨1, 1⟩ 0 : Nat) : Int) 0
      = (1, (1 : Int)) :=
  C5_index_position_inverse sampleDoc ⟨1, 1⟩ (by norm_num [sampleDoc])
    (by norm_num [sampleDoc])

/-! ### Claim C6 -/

/-- A two-line document used for the C6 counterexample. -/
def twoLineDoc : Document := ⟨[['a'], ['b']], [], NewLineMode.auto⟩

/-- The spec's three-line example document. -/
def threeLineDoc : Document := ⟨[['a'], ['b'], ['c']], [], NewLineMode.auto⟩

/-- Counterexample to C6 as stated: removing the whole document
(`removeFullLines(0, 1)` on `["a", "b"]`) does not delete the inclusive
row range while consuming one boundary newline — that would leave no rows
at all — but leaves the single empty line `[""]`, swallowing every
newline. -/
theorem C6_counterexample :
    (twoLineDoc.removeFullLines 0 1).doc.lines = [([] : Line)]
    ∧ (twoLineDoc.removeFullLines 0 1).val = [['a'], ['b']]
    ∧ (twoLineDoc.removeFullLines 0 1).doc.lines
        ≠ twoLineDoc.lines.take 0 ++ twoLineDoc.lines.drop 2 := by
  refine ⟨by decide, by decide, ?_⟩
  intro h
  rw [show twoLineDoc.lines.take 0 ++ twoLineDoc.lines.drop 2 = [] from by decide] at h
  exact absurd h (by decide)

/-- C6 amended: for `firstRow ≤ lastRow` whose clipped range does not
cover the whole document, `removeFullLines` deletes the inclusive clipped
row range and consumes exactly one boundary newline — the preceding one
when the removal reaches the last row (then `firstRow > 0`), otherwise
the following one — and returns the removed rows verbatim; removing every
row instead leaves the single empty line. -/
theorem C6_remove_full_lines (doc : Document) (firstRow lastRow : Nat)
    (hfl : firstRow ≤ lastRow)
    (hnotall : ¬ (min (max 0 firstRow) (doc.getLength - 1) = 0
        ∧ min (max 0 lastRow) (doc.getLength - 1) = doc.getLength - 1)) :
    (doc.removeFullLines firstRow lastRow).val
        = (doc.lines.drop (min (max 0 firstRow) (doc.getLength - 1))).take
            (min (max 0 lastRow) (doc.getLength - 1) + 1
              - min (max 0 firstRow) (doc.getLength - 1))
    ∧ (doc.removeFullLines firstRow lastRow).doc.lines
        = (if min (max 0 lastRow) (doc.getLength - 1) = doc.getLength - 1 then
            doc.lines.take (min (max 0 firstRow) (doc.getLength - 1))
          else
            doc.lines.take (min (max 0 firstRow) (doc.getLength - 1))
              ++ doc.lines.drop (min (max 0 lastRow) (doc.getLength - 1) + 1)) := by
  set len := doc.getLength with hlendef
  have hlenlines : doc.lines.length = len := rfl
  set f := min (max 0 firstRow) (len - 1) with hf
  set l := min (max 0 lastRow) (len - 1) with hl
  have hfle : f ≤ l := by
    rw [hf, hl]
    have : max 0 firstRow ≤ max 0 lastRow := by omega
    omega
  have hlen2 : 2 ≤ len := by
    by_contra hcon
    apply hnotall
    constructor
    · rw [hf]
      omega
    · rw [hl]
      omega
  have hllen : l ≤ len - 1 := by
    rw [hl]
    omega
  rw [Document.removeFullLines]
  dsimp only
  rw [← hf, ← hl, ← hlendef]
  by_cases hlast : l = len - 1
  · have hfpos : 0 < f := by
      rcases Nat.eq_zero_or_pos f with h0 | hpos
      · exact absurd ⟨h0, hlast⟩ hnotall
      · exact hpos
    rw [if_pos ⟨hlast, hfpos⟩, if_pos ⟨hlast, hfpos⟩, if_neg (by omega), if_neg (by omega)]
    have happ := applyDelta_remove_spec doc ⟨f - 1, (doc.getLine (f - 1)).length⟩
      ⟨l, (doc.getLine l).length⟩
      (doc.getLinesForRange ⟨f - 1, (doc.getLine (f - 1)).length⟩ ⟨l, (doc.getLine l).length⟩)
      false (by show f - 1 < doc.lines.length; omega)
    rw [happ.1, if_pos hlast]
    refine ⟨rfl, ?_⟩
    show remLines doc.lines (f - 1) (doc.getLine (f - 1)).length l (doc.getLine l).length
        = doc.lines.take f
    rw [remLines_multi _ _ _ _ _ (by omega)]
    simp only [Document.getLine]
    rw [List.take_length, List.drop_length, List.append_nil]
    have h3 : doc.lines.drop (l + 1) = [] := by
      apply List.drop_eq_nil_of_le
      omega
    rw [h3]
    have h4 : doc.lines.take (f - 1) ++ [doc.lines.getD (f - 1) []] = doc.lines.take f := by
      rw [List.getD_eq_getElem doc.lines [] (by omega), List.take_concat_get' _ _ (by omega)]
      congr 1
      omega
    exact h4
  · rw [if_neg (by rintro ⟨h1, -⟩; exact hlast h1), if_neg (by rintro ⟨h1, -⟩; exact hlast h1),
      if_pos (by omega), if_pos (by omega)]
    have happ := applyDelta_remove_spec doc ⟨f, 0⟩ ⟨l + 1, 0⟩
      (doc.getLinesForRange ⟨f, 0⟩ ⟨l + 1, 0⟩) false (by show f < doc.lines.length; omega)
    rw [happ.1, if_neg hlast]
    refine ⟨rfl, ?_⟩
    show remLines doc.lines f 0 (l + 1) 0
        = doc.lines.take f ++ doc.lines.drop (l + 1)
    rw [remLines_multi _ _ _ _ _ (by omega)]
    rw [List.take_zero, List.drop_zero, List.nil_append]
    rw [getD_cons_drop _ _ _ (by omega)]

/-! ### Claim C4: round trip for uniform separators -/

/-- A line without embedded line terminators. -/
def NoNewlineChar (l : Line) : Prop := ∀ ch ∈ l, ch ≠ '\n' ∧ ch ≠ '\r'

instance decNoNewlineChar : DecidablePred NoNewlineChar := fun l =>
  decidable_of_iff (∀ ch ∈ l, ch ≠ '\n' ∧ ch ≠ '\x0d') Iff.rfl

/-- One of the three uniform separators. -/
def ValidSep (sep : Line) : Prop :=
  sep = ['\n'] ∨ sep = ['\r', '\n'] ∨ sep = ['\r']

lemma intercalate_cons_cons {α : Type} (sep a b : List α) (t : List (List α)) :
    List.intercalate sep (a :: b :: t) = a ++ sep ++ List.intercalate sep (b :: t) := by
  simp [List.intercalate, List.intersperse]

lemma intercalate_singleton {α : Type} (sep a : List α) :
    List.intercalate sep [a] = a := by
  simp [List.intercalate, List.intersperse]

/-- `$split` never returns an empty list. -/
lemma split_ne_nil : ∀ (n : Nat) (s : Line), s.length ≤ n → Document.split s ≠ [] := by
  intro n
  induction n with
  | zero =>
    intro s hs
    have : s = [] := List.eq_nil_of_length_eq_zero (by omega)
    subst this
    rw [Document.split]
    simp
  | succ n ih =>
    intro s hs
    rcases s with - | ⟨c, rest⟩
    · rw [Document.split]
      simp
    · rw [Document.split]
      by_cases h1 : c = '\r'
      · rw [if_pos h1]
        by_cases h2 : rest.head? = some '\n'
        · rw [if_pos h2]
          simp
        · rw [if_neg h2]
          simp
      · rw [if_neg h1]
        by_cases h2 : c = '\n'
        · rw [if_pos h2]
          simp
        · rw [if_neg h2]
          rcases hsp : Document.split rest with - | ⟨l, ls⟩
          · simp
          · simp

/-- `$split` of a terminator-free prefix extends the first segment. -/
lemma split_append_noNL : ∀ (l s : Line), NoNewlineChar l →
    Document.split (l ++ s)
      = (l ++ (Document.split s).headI) :: (Document.split s).tail := by
  intro l
  induction l with
  | nil =>
    intro s hnl
    rcases hsp : Document.split s with - | ⟨x, xs⟩
    · exact absurd hsp (split_ne_nil s.length s (le_refl _))
    · simp [hsp]
  | cons c l ih =>
    intro s hnl
    have hc := hnl c (by simp)
    rw [List.cons_append, Document.split, if_neg hc.2, if_neg hc.1]
    rw [ih s (fun ch hch => hnl ch (by simp [hch]))]
    rfl

/-- `$split` cuts at a leading `\n`. -/
lemma split_cons_lf (s : Line) : Document.split ('\n' :: s) = [] :: Document.split s := by
  rw [Document.split, if_neg (show ¬ ('\n' = '\x0d') from by decide),
    if_pos (show '\n' = '\n' from rfl)]

/-- `$split` cuts at a leading `\r\n` as one separator. -/
lemma split_cons_crlf (s : Line) :
    Document.split ('\r' :: '\n' :: s) = [] :: Document.split s := by
  rw [Document.split, if_pos (show ('\x0d' : Char) = '\x0d' from rfl),
    if_pos (show ('\n' :: s).head? = some '\n' from rfl)]
  rfl

/-- `$split` cuts at a leading `\r` not followed by `\n`. -/
lemma split_cons_cr (s : Line) (hs : s.head? ≠ some '\n') :
    Document.split ('\r' :: s) = [] :: Document.split s := by
  rw [Document.split, if_pos (show ('\x0d' : Char) = '\x0d' from rfl), if_neg hs]

/-- The head of an intercalation by `\r` of terminator-free lines is never
`\n`. -/
lemma intercalate_cr_head (ls : List Line) (hnl : ∀ l ∈ ls, NoNewlineChar l) :
    (List.intercalate ['\r'] ls).head? ≠ some '\n' := by
  rcases ls with - | ⟨l, rest⟩
  · simp [List.intercalate]
  rcases l with - | ⟨c, l2⟩
  · rcases rest with - | ⟨l2, rest2⟩
    · rw [intercalate_singleton]
      simp
    · rw [intercalate_cons_cons]
      simp
  · have hc := hnl (c :: l2) (by simp) c (by simp)
    rcases rest with - | ⟨l3, rest3⟩
    · rw [intercalate_singleton]
      simp
      intro hcon
      exact hc.1 hcon
    · rw [intercalate_cons_cons]
      simp
      intro hcon
      exact hc.1 hcon

/-- Splitting an intercalation by a uniform separator of terminator-free
lines recovers the lines. -/
lemma split_intercalate (sep : Line) (hsep : ValidSep sep) :
    ∀ (ls : List Line), (∀ l ∈ ls, NoNewlineChar l) → ls ≠ [] →
      Document.split (List.intercalate sep ls) = ls := by
  intro ls
  induction ls with
  | nil =>
    intro h1 hne
    exact absurd rfl hne
  | cons l rest ih =>
    intro hnl hne2
    rcases rest with - | ⟨l2, rest2⟩
    · rw [intercalate_singleton]
      rw [show l = l ++ [] from by simp, split_append_noNL l [] (hnl l (by simp))]
      rw [Document.split]
      simp
    · rw [intercalate_cons_cons, List.append_assoc,
        split_append_noNL l _ (hnl l (by simp))]
      have hrest : Document.split (sep ++ List.intercalate sep (l2 :: rest2))
          = [] :: Document.split (List.intercalate sep (l2 :: rest2)) := by
        rcases hsep with h | h | h
        · rw [h]
          exact split_cons_lf _
        · rw [h]
          exact split_cons_crlf _
        · rw [h]
          apply split_cons_cr
          apply intercalate_cr_head
          intro x hx
          exact hnl x (by simp [hx])
      rw [hrest]
      have hih := ih (fun x hx => hnl x (by simp at hx ⊢; tauto)) (by simp)
      rw [List.headI_cons, List.tail_cons, List.append_nil, hih]

/-- `firstNewLine` skips a terminator-free prefix. -/
lemma firstNewLine_append (l s : Line) (hnl : NoNewlineChar l) :
    firstNewLine (l ++ s) = firstNewLine s := by
  induction l with
  | nil => rfl
  | cons c l ih =>
    have hc := hnl c (by simp)
    rw [List.cons_append, firstNewLine, if_neg hc.2, if_neg hc.1]
    exact ih (fun ch hch => hnl ch (by simp [hch]))

/-- `firstNewLine` never returns the empty string. -/
lemma firstNewLine_ne_nil (s : Line) : firstNewLine s ≠ [] := by
  induction s with
  | nil =>
    rw [firstNewLine]
    simp
  | cons c rest ih =>
    rw [firstNewLine]
    by_cases h1 : c = '\r'
    · rw [if_pos h1]
      by_cases h2 : rest.head? = some '\n'
      · rw [if_pos h2]
        simp
      · rw [if_neg h2]
        simp
    · rw [if_neg h1]
      by_cases h2 : c = '\n'
      · rw [if_pos h2]
        simp
      · rw [if_neg h2]
        exact ih

/-- On an intercalation of at least two terminator-free lines by a uniform
separator, `firstNewLine` detects exactly that separator. -/
lemma firstNewLine_intercalate (sep : Line) (hsep : ValidSep sep)
    (l l2 : Line) (rest : List Line)
    (hnl : ∀ x ∈ l :: l2 :: rest, NoNewlineChar x) :
    firstNewLine (List.intercalate sep (l :: l2 :: rest)) = sep := by
  rw [intercalate_cons_cons, List.append_assoc,
    firstNewLine_append l _ (hnl l (by simp))]
  rcases hsep with h | h | h
  · rw [h, List.cons_append, firstNewLine,
      if_neg (show ¬ ('\n' = '\x0d') from by decide),
      if_pos (show '\n' = '\n' from rfl)]
  · rw [h]
    rw [show ['\x0d', '\n'] ++ List.intercalate ['\x0d', '\n'] (l2 :: rest)
        = '\x0d' :: '\n' :: List.intercalate ['\x0d', '\n'] (l2 :: rest) from rfl]
    rw [firstNewLine, if_pos (show ('\x0d' : Char) = '\x0d' from rfl),
      if_pos (show ('\n' :: List.intercalate ['\x0d', '\n'] (l2 :: rest)).head?
        = some '\n' from rfl)]
  · rw [h]
    rw [show ['\x0d'] ++ List.intercalate ['\x0d'] (l2 :: rest)
        = '\x0d' :: List.intercalate ['\x0d'] (l2 :: rest) from rfl]
    rw [firstNewLine, if_pos (show ('\x0d' : Char) = '\x0d' from rfl)]
    rw [if_neg (intercalate_cr_head (l2 :: rest)
      (fun x hx => hnl x (by simp at hx ⊢; tauto)))]

/-- Splicing lines into the fresh one-line document yields the lines. -/
lemma insLines_into_fresh (L : List Line) (hL : L ≠ []) :
    insLines [([] : Line)] 0 0 L = L := by
  rcases L with - | ⟨x, T⟩
  · exact absurd rfl hL
  rcases List.eq_nil_or_concat T with rfl | ⟨M, y, rfl⟩
  · rw [insLines_single]
    simp
  · simp only [List.concat_eq_append]
    rw [insLines_pair]
    simp

lemma document_eq (d1 d2 : Document) (h1 : d1.lines = d2.lines)
    (h2 : d1.autoNewLine = d2.autoNewLine) (h3 : d1.newLineMode = d2.newLineMode) :
    d1 = d2 := by
  obtain ⟨a, b, c⟩ := d1
  obtain ⟨x, y, z⟩ := d2
  simp only at h1 h2 h3
  rw [h1, h2, h3]

/-- Inserting a text at the origin of the fresh one-line document detects
the newline and stores exactly the split lines. -/
lemma insert_into_fresh (T : Line) (hT : Document.split T ≠ []) :
    ((⟨[([] : Line)], [], NewLineMode.auto⟩ : Document).insert ⟨0, 0⟩ T).doc
      = ⟨Document.split T, firstNewLine T, NewLineMode.auto⟩ := by
  have happ := applyDelta_insert_spec ⟨[([] : Line)], firstNewLine T, NewLineMode.auto⟩
    ⟨0, 0⟩
    ⟨0 + (Document.split T).length - 1,
      (if (Document.split T).length = 1 then 0 else 0)
        + ((Document.split T).getLastD []).length⟩
    (Document.split T) false (by simp) (by simp) hT
  apply document_eq
  · exact happ.1.trans (insLines_into_fresh _ hT)
  · exact happ.2.1
  · exact happ.2.2

/-- C4: constructing a document under the default auto newline mode from a
text with uniform line separators (all `\n`, all `\r\n`, or all `\r`) and
reading it back with `getValue` returns exactly the original text. -/
theorem C4_round_trip (T sep : Line) (ls : List Line)
    (hsep : ValidSep sep)
    (hnl : ∀ l ∈ ls, NoNewlineChar l)
    (hne : ls ≠ [])
    (hT : T = List.intercalate sep ls) :
    (mkDocument (TextOrLines.text T)).1.getValue = T := by
  have hsplit : Document.split T = ls := by
    rw [hT]
    exact split_intercalate sep hsep ls hnl hne
  by_cases hT0 : T.length = 0
  · have hTnil : T = [] := List.eq_nil_of_length_eq_zero hT0
    rw [mkDocument, if_pos hT0, hTnil]
    decide
  · rw [mkDocument, if_neg hT0]
    dsimp only
    rw [insert_into_fresh T (by rw [hsplit]; exact hne)]
    rw [Document.getValue, getAllLines_eq]
    dsimp only
    have hnlc : (⟨Document.split T, firstNewLine T,
          NewLineMode.auto⟩ : Document).getNewLineCharacter
        = firstNewLine T := by
      rw [show (⟨Document.split T, firstNewLine T,
            NewLineMode.auto⟩ : Document).getNewLineCharacter
          = if firstNewLine T = [] then ['\n'] else firstNewLine T from rfl]
      rw [if_neg (firstNewLine_ne_nil T)]
    rw [hnlc, hsplit]
    rcases ls with - | ⟨l, rest⟩
    · exact absurd rfl hne
    rcases rest with - | ⟨l2, rest2⟩
    · rw [intercalate_singleton, hT, intercalate_singleton]
    · rw [hT, firstNewLine_intercalate sep hsep l l2 rest2 hnl]

/-- Witness for C4 on the text `"ab\ncd"`. -/
theorem C4_round_trip_witness :
    (mkDocument (TextOrLines.text ['a', 'b', '\n', 'c', 'd'])).1.getValue
      = ['a', 'b', '\n', 'c', 'd'] :=
  C4_round_trip ['a', 'b', '\n', 'c', 'd'] ['\n'] [['a', 'b'], ['c', 'd']]
    (Or.inl rfl) (by decide) (by decide) (by decide)

/-! ### Claim C3: the length invariant -/

/-- The splice never empties the line store. -/
lemma spliceLines_length_pos (D : List Line) (d : Delta) (hD : 1 ≤ D.length) :
    1 ≤ (spliceLines D d).length := by
  rw [spliceLines]
  cases d.action with
  | insert =>
    rw [insLines]
    by_cases h1 : d.lines.length = 1
    · rw [if_pos h1]
      simp
      omega
    · rw [if_neg h1]
      simp
      omega
  | remove =>
    rw [remLines]
    by_cases h1 : d.start.row = d.stop.row
    · rw [if_pos h1]
      simp
      omega
    · rw [if_neg h1]
      simp
      omega

/-- `applyDeltaNoChunk` never empties the line store. -/
lemma applyDeltaNoChunk_length_pos (doc : Document) (d : Delta)
    (hD : 1 ≤ doc.lines.length) :
    1 ≤ (doc.applyDeltaNoChunk d).doc.lines.length := by
  rw [Document.applyDeltaNoChunk]
  cases d.action with
  | insert =>
    by_cases h : d.lines.length ≤ 1 ∧ d.lines.getD 0 [] = []
    · rw [if_pos h]
      exact hD
    · rw [if_neg h]
      exact spliceLines_length_pos doc.lines d hD
  | remove =>
    by_cases h : comparePoints d.start d.stop = 0
    · rw [if_pos h]
      exact hD
    · rw [if_neg h]
      exact spliceLines_length_pos doc.lines d hD

/-- The chunking loop never empties the line store. -/
lemma splitLoop_length_pos (L : List Line) (action : DeltaAction) (MAX : Nat) (l : Int)
    (row : Nat) :
    ∀ (n from_ col : Nat) (doc : Document) (ev : List Event),
      (l - (from_ : Int)).toNat ≤ n → 1 ≤ doc.lines.length →
      1 ≤ (doc.splitLoop ev L action MAX l row col from_).1.lines.length := by
  intro n
  induction n with
  | zero =>
    intro from_ col doc ev hn hD
    have hstop : ¬ ((from_ : Int) < l ∧ 2 ≤ MAX) := by
      rintro ⟨h1, -⟩
      omega
    rw [Document.splitLoop, dif_neg hstop]
    exact hD
  | succ n ih =>
    intro from_ col doc ev hn hD
    by_cases hcond : (from_ : Int) < l ∧ 2 ≤ MAX
    · rw [Document.splitLoop, dif_pos hcond]
      dsimp only
      exact ih _ _ _ _ (by omega) (applyDeltaNoChunk_length_pos _ _ hD)
    · rw [Document.splitLoop, dif_neg hcond]
      exact hD

/-- `applyDelta` never empties the line store. -/
lemma applyDelta_length_pos (doc : Document) (d : Delta) (dnv : Bool)
    (hD : 1 ≤ doc.lines.length) :
    1 ≤ (doc.applyDelta d dnv).doc.lines.length := by
  rw [Document.applyDelta]
  cases d.action with
  | insert =>
    by_cases h : d.lines.length ≤ 1 ∧ d.lines.getD 0 [] = []
    · rw [if_pos h]
      exact hD
    · rw [if_neg h]
      by_cases hbig : 20000 < d.lines.length
      · rw [if_pos hbig]
        rw [Document.splitAndapplyLargeDelta]
        dsimp only
        apply applyDeltaNoChunk_length_pos
        exact splitLoop_length_pos _ _ _ _ _
          (((d.lines.length : Int) - 20000 + 1) - 0).toNat 0 _ _ _ (by omega) hD
      · rw [if_neg hbig]
        exact spliceLines_length_pos doc.lines d hD
  | remove =>
    by_cases h : comparePoints d.start d.stop = 0
    · rw [if_pos h]
      exact hD
    · rw [if_neg h]
      exact spliceLines_length_pos doc.lines d hD

/-- `$safeApplyDelta` never empties the line store. -/
lemma safeApplyDelta_length_pos (doc : Document) (d : Delta)
    (hD : 1 ≤ doc.lines.length) :
    1 ≤ (doc.safeApplyDelta d).doc.lines.length := by
  rw [Document.safeApplyDelta]
  split
  · exact applyDelta_length_pos doc d false hD
  · exact hD

/-- `revertDelta` never empties the line store. -/
lemma revertDelta_length_pos (doc : Document) (d : Delta)
    (hD : 1 ≤ doc.lines.length) :
    1 ≤ (doc.revertDelta d).doc.lines.length := by
  rw [Document.revertDelta]
  exact safeApplyDelta_length_pos _ _ hD

/-- The `applyDeltas` fold never empties the line store. -/
lemma applyDeltas_fold_length_pos (ds : List Delta) :
    ∀ (st : Document × List Event), 1 ≤ st.1.lines.length →
      1 ≤ (ds.foldl (fun s d => ((s.1.applyDelta d false).doc,
          s.2 ++ (s.1.applyDelta d false).events)) st).1.lines.length := by
  induction ds with
  | nil =>
    intro st h
    exact h
  | cons d ds ih =>
    intro st h
    rw [List.foldl_cons]
    exact ih _ (applyDelta_length_pos _ _ _ h)

/-- The `revertDeltas` fold never empties the line store. -/
lemma revertDeltas_fold_length_pos (ds : List Delta) :
    ∀ (st : Document × List Event), 1 ≤ st.1.lines.length →
      1 ≤ (ds.foldl (fun s d => ((s.1.revertDelta d).doc,
          s.2 ++ (s.1.revertDelta d).events)) st).1.lines.length := by
  induction ds with
  | nil =>
    intro st h
    exact h
  | cons d ds ih =>
    intro st h
    rw [List.foldl_cons]
    exact ih _ (revertDelta_length_pos _ _ h)

/-- `insert` never empties the line store. -/
lemma insert_length_pos (doc : Document) (p : Pos) (t : Line)
    (hD : 1 ≤ doc.lines.length) :
    1 ≤ (doc.insert p t).doc.lines.length := by
  rw [Document.insert]
  apply applyDelta_length_pos
  by_cases h : doc.getLength ≤ 1
  · simpa [h, Document.detectNewLine] using hD
  · simpa [h] using hD

/-- Every public operation keeps at least one line in the store. -/
lemma runOp_length_pos (doc : Document) (op : DocOp) (hD : 1 ≤ doc.lines.length) :
    1 ≤ (runOp doc op).lines.length := by
  cases op with
  | insert p t =>
    rw [runOp]
    exact insert_length_pos _ _ _ hD
  | insertInLine p t => exact applyDelta_length_pos _ _ _ hD
  | insertMergedLines p ls => exact applyDelta_length_pos _ _ _ hD
  | insertFullLines r ls =>
    rw [runOp, Document.insertFullLines]
    split
    · exact applyDelta_length_pos _ _ _ hD
    · exact applyDelta_length_pos _ _ _ hD
  | remove s e => exact applyDelta_length_pos _ _ _ hD
  | removeInLine r a b => exact applyDelta_length_pos _ _ _ hD
  | removeFullLines a b => exact applyDelta_length_pos _ _ _ hD
  | removeNewLine r =>
    rw [runOp, Document.removeNewLine]
    split
    · exact applyDelta_length_pos _ _ _ hD
    · exact hD
  | setValue t =>
    rw [runOp]
    show 1 ≤ ((doc.remove ⟨0, 0⟩
        ⟨doc.getLength - 1, (doc.getLine (doc.getLength - 1)).length⟩).doc.insert
          ⟨0, 0⟩ t).doc.lines.length
    exact insert_length_pos _ _ _ (applyDelta_length_pos _ _ _ hD)
  | replace s e t =>
    rw [runOp, Document.replace]
    split
    · exact hD
    · split
      · exact hD
      · have h1 : 1 ≤ (doc.remove s e).doc.lines.length := applyDelta_length_pos _ _ _ hD
        split
        · exact insert_length_pos _ _ _ h1
        · exact h1
  | applyDelta d => exact applyDelta_length_pos _ _ _ hD
  | revertDelta d => exact revertDelta_length_pos _ _ hD
  | applyDeltas ds =>
    rw [runOp, Document.applyDeltas]
    exact applyDeltas_fold_length_pos ds (doc, []) hD
  | revertDeltas ds =>
    rw [runOp, Document.revertDeltas]
    exact revertDeltas_fold_length_pos ds.reverse (doc, []) hD
  | setNewLineMode m =>
    rw [runOp, Document.setNewLineMode]
    split
    · exact hD
    · exact hD

/-- Any sequence of operations keeps at least one line in the store. -/
lemma runOps_length_pos (ops : List DocOp) :
    ∀ (doc : Document), 1 ≤ doc.lines.length → 1 ≤ (runOps doc ops).lines.length := by
  induction ops with
  | nil =>
    intro doc h
    exact h
  | cons op ops ih =>
    intro doc h
    rw [runOps, List.foldl_cons]
    exact ih _ (runOp_length_pos doc op h)

/-- C3: after any sequence of public operations (construction, the insert
and remove families, setValue, replace, applyDelta(s), revertDelta(s)),
`getLength()` is at least 1; in particular removing all content — here
`removeFullLines(0, 2)` on the three-line example — leaves one empty
line. -/
theorem C3_length_invariant :
    (∀ (init : TextOrLines) (ops : List DocOp),
      1 ≤ (runOps (mkDocument init).1 ops).getLength)
    ∧ (threeLineDoc.removeFullLines 0 2).doc.lines = [([] : Line)] := by
  constructor
  · intro init ops
    have hinit : 1 ≤ (mkDocument init).1.lines.length := by
      cases init with
      | text t =>
        rw [mkDocument]
        by_cases h : t.length = 0
        · rw [if_pos h]
          simp
        · rw [if_neg h]
          exact insert_length_pos _ _ _ (by simp)
      | linesOf ls =>
        rw [mkDocument]
        by_cases h : ls.length = 0
        · rw [if_pos h]
          simp
        · rw [if_neg h]
          exact applyDelta_length_pos _ _ _ (by simp)
    exact runOps_length_pos ops _ hinit
  · decide

/-- Witness for C6 on `["a", "b", "c"]` with `removeFullLines(0, 0)`. -/
theorem C6_remove_full_lines_witness :
    (threeLineDoc.removeFullLines 0 0).val
        = (threeLineDoc.lines.drop (min (max 0 0) (threeLineDoc.getLength - 1))).take
            (min (max 0 0) (threeLineDoc.getLength - 1) + 1
              - min (max 0 0) (threeLineDoc.getLength - 1))
    ∧ (threeLineDoc.removeFullLines 0 0).doc.lines
        = (if min (max 0 0) (threeLineDoc.getLength - 1) = threeLineDoc.getLength - 1 then
            threeLineDoc.lines.take (min (max 0 0) (threeLineDoc.getLength - 1))
          else
            threeLineDoc.lines.take (min (max 0 0) (threeLineDoc.getLength - 1))
              ++ threeLineDoc.lines.drop
                  (min (max 0 0) (threeLineDoc.getLength - 1) + 1)) :=
  C6_remove_full_lines threeLineDoc 0 0 (le_refl 0) (by
    rintro ⟨-, h2⟩
    rw [show threeLineDoc.getLength - 1 = 2 from rfl] at h2
    exact absurd h2 (by decide))


/-- The chunking loop's final window start for a 20001-line insert at
threshold 20000: one iteration advances `from` by 19999 and the next guard
fails, so the loop ends with `from = 19999`. -/
lemma loopFinalFrom_20001 : loopFinalFrom 20000 2 0 = 19999 := by
  rw [loopFinalFrom, dif_pos (by norm_num)]
  rw [show (0 + (20000 - 1) : Nat) = 19999 from by norm_num]
  rw [loopFinalFrom, dif_neg (by norm_num)]

/-- Length of the serialization of `n + 1` empty lines: `n` copies of the
newline string. -/
lemma intercalate_replicate_nil_length (nl : Line) (n : Nat) :
    (List.intercalate nl (List.replicate (n + 1) ([] : Line))).length
      = n * nl.length := by
  induction n with
  | zero =>
    rw [List.replicate_one, intercalate_singleton]
    simp
  | succ k ih =>
    have h1 : List.replicate (k + 1 + 1) ([] : Line)
        = [] :: [] :: List.replicate k [] := by
      rw [List.replicate_succ, List.replicate_succ]
    rw [h1, intercalate_cons_cons, ← List.replicate_succ]
    simp only [List.nil_append, List.length_append, ih]
    ring

/-- The last of the 20001 inserted empty lines. -/
lemma bigInsert_getLastD :
    (List.replicate 20001 ([] : Line)).getLastD [] = [] := by
  rw [show (20001 : Nat) = 20000 + 1 from rfl, List.replicate_succ',
    List.getLastD_concat]

/-- The splice result of the 20001-empty-line insert at `(20000, 20000)`:
fetching the line past the 20000-line prefix. -/
lemma replicate20001_getD :
    (List.replicate 20001 ([] : Line)).getD 20000 [] = [] := by
  rw [show (20001 : Nat) = 20000 + 1 from rfl, List.replicate_succ']
  rw [getD_append_right (List.replicate 20000 ([] : Line)) [[]] 20000 []
    (le_of_eq (List.length_replicate _ _))]
  rw [List.length_replicate, show (20000 - 20000 : Nat) = 0 from by norm_num]
  rfl

/-- `applyDelta` routes the 20001-line insert through the chunking path. -/
lemma applyDelta_big_eq_split : emptyDoc.applyDelta bigInsertDelta false
    = emptyDoc.splitAndapplyLargeDelta
        ⟨⟨0, 0⟩, ⟨20000, 0⟩, DeltaAction.insert,
          List.replicate 20001 ([] : Line)⟩ 20000 := by
  show emptyDoc.applyDelta
      ⟨⟨0, 0⟩, ⟨20000, 0⟩, DeltaAction.insert,
        List.replicate 20001 ([] : Line)⟩ false = _
  rw [Document.applyDelta]
  rw [if_neg (by
    rintro ⟨h1, -⟩
    have h1x : (List.replicate 20001 ([] : Line)).length ≤ 1 := h1
    rw [List.length_replicate] at h1x
    omega)]
  rw [if_pos (by
    have h2x : (20000 : Nat) < (List.replicate 20001 ([] : Line)).length := by
      rw [List.length_replicate]
      omega
    exact h2x)]

/-- The caller-visible delta after the chunked 20001-line insert: start row
and lines have been overwritten with the final tail window. -/
lemma splitBig_delta : (emptyDoc.splitAndapplyLargeDelta
      ⟨⟨0, 0⟩, ⟨20000, 0⟩, DeltaAction.insert,
        List.replicate 20001 ([] : Line)⟩ 20000).delta
    = ⟨⟨(⟨0, 0⟩ : Pos).row + 19999, 0⟩, ⟨20000, 0⟩, DeltaAction.insert,
        List.drop 19999 (List.replicate 20001 ([] : Line))⟩ := by
  have hspec := splitAndapplyLargeDelta_spec emptyDoc ⟨0, 0⟩ ⟨20000, 0⟩
    (List.replicate 20001 ([] : Line)) 20000 (by omega)
    (by rw [List.length_replicate]; omega)
    (by show (0 : Nat) < [([] : Line)].length; simp) (Nat.zero_le _)
  have hlcast : ((List.replicate 20001 ([] : Line)).length : Int)
      - ((20000 : Nat) : Int) + 1 = 2 := by
    rw [List.length_replicate]
    norm_num
  rw [hlcast, loopFinalFrom_20001] at hspec
  exact hspec.2.2.2.1

/-- The document produced by the chunked 20001-line insert into the empty
one-line document holds exactly the 20001 inserted empty lines. -/
lemma splitBig_lines : (emptyDoc.splitAndapplyLargeDelta
    ⟨⟨0, 0⟩, ⟨20000, 0⟩, DeltaAction.insert,
      List.replicate 20001 ([] : Line)⟩ 20000).doc.lines
    = List.replicate 20001 ([] : Line) := by
  have hLne : List.replicate 20001 ([] : Line) ≠ [] := by
    intro h
    have := congrArg List.length h
    rw [List.length_replicate] at this
    simp at this
  have hspec := splitAndapplyLargeDelta_spec emptyDoc ⟨0, 0⟩ ⟨20000, 0⟩
    (List.replicate 20001 ([] : Line)) 20000 (by omega)
    (by rw [List.length_replicate]; omega)
    (by show (0 : Nat) < [([] : Line)].length; simp) (Nat.zero_le _)
  rw [hspec.1]
  exact insLines_into_fresh _ hLne

/-- The serialization of 20000 empty lines under auto newline mode has
19999 newline characters. -/
lemma getValue_allEmpty_length : (Document.getValue
    ⟨List.replicate 20000 ([] : Line), [], NewLineMode.auto⟩).length
    = 19999 := by
  rw [Document.getValue, getAllLines_eq]
  have hnl : (Document.getNewLineCharacter
      ⟨List.replicate 20000 ([] : Line), [], NewLineMode.auto⟩)
      = ['\n'] := by
    rw [Document.getNewLineCharacter]
    rfl
  rw [hnl]
  dsimp only
  have hil := intercalate_replicate_nil_length ['\n'] 19999
  rw [show (19999 + 1 : Nat) = 20000 from by norm_num] at hil
  rw [hil]
  simp

/-- Reverting the tail-window delta left behind by the chunking path on any
document holding the 20001 inserted empty lines removes only the final
window: the result serializes to 19999 newlines, not the empty string. -/
lemma revert_mutated_big (D : Document)
    (h1 : D.lines = List.replicate 20001 ([] : Line))
    (h2 : D.autoNewLine = []) (h3 : D.newLineMode = NewLineMode.auto) :
    (D.revertDelta ⟨⟨19999, 0⟩, ⟨20000, 0⟩, DeltaAction.insert,
        List.replicate 2 ([] : Line)⟩).doc.getValue ≠ emptyDoc.getValue := by
  have hb1 : (19999 : Nat) < D.lines.length := by
    rw [h1, List.length_replicate]
    omega
  have hb2 : (20000 : Nat) < D.lines.length := by
    rw [h1, List.length_replicate]
    omega
  rw [Document.revertDelta]
  simp only [Document.clonePos, List.drop_zero, reduceIte]
  rw [safeApplyDelta_fits _ _ (Or.inl ⟨rfl, hb1, hb2⟩)]
  have hrem := applyDelta_remove_spec D ⟨19999, 0⟩ ⟨20000, 0⟩
    (List.replicate 2 ([] : Line)) false hb1
  have hfin : (D.applyDelta ⟨⟨19999, 0⟩, ⟨20000, 0⟩, DeltaAction.remove,
      List.replicate 2 ([] : Line)⟩ false).doc.lines
      = List.replicate 20000 ([] : Line) := by
    rw [hrem.1, h1,
      remLines_multi _ _ _ _ _ (show (19999 : Nat) ≠ 20000 from by omega)]
    rw [List.take_replicate, List.take_zero, List.drop_zero, replicate20001_getD,
      List.drop_replicate]
    rw [show min 19999 20001 = 19999 from by norm_num,
      show (20001 - (20000 + 1) : Nat) = 0 from by norm_num]
    rw [List.replicate_zero, List.nil_append, ← List.replicate_succ']
  rw [getValue_congr _ ⟨List.replicate 20000 ([] : Line), [], NewLineMode.auto⟩
    hfin (hrem.2.1.trans h2) (hrem.2.2.1.trans h3)]
  intro heq
  have hlen1 := getValue_allEmpty_length
  rw [heq, show (emptyDoc.getValue).length = 0 from rfl] at hlen1
  omega

/-- C1 is refuted on an oversized insert: inserting 20001 empty lines into
the one-line empty document applies successfully, but the chunking path has
mutated the caller's delta in place, so the immediate `revertDelta` on that
delta removes only the final two-line tail window; `getValue()` comes back
with 19999 newline characters instead of the original empty string. -/
theorem C1_counterexample :
    WellFormedDelta emptyDoc bigInsertDelta
    ∧ ((emptyDoc.applyDelta bigInsertDelta false).doc.revertDelta
          (emptyDoc.applyDelta bigInsertDelta false).delta).doc.getValue
        ≠ emptyDoc.getValue := by
  constructor
  · have hLne : List.replicate 20001 ([] : Line) ≠ [] := by
      intro h
      have := congrArg List.length h
      rw [List.length_replicate] at this
      simp at this
    have hlines0 : bigInsertDelta.lines = List.replicate 20001 ([] : Line) := rfl
    refine ⟨?_, ?_, ?_, ?_, ?_⟩
    · show (0 : Nat) < [([] : Line)].length
      simp
    · show (0 : Nat) ≤ ([([] : Line)].getD 0 []).length
      exact Nat.zero_le _
    · show List.replicate 20001 ([] : Line) ≠ []
      exact hLne
    · rw [hlines0, List.length_replicate]
      rfl
    · show bigInsertDelta.stop.column
          = (if bigInsertDelta.lines.length = 1 then bigInsertDelta.start.column
              else 0) + (bigInsertDelta.lines.getLastD []).length
      rw [hlines0, List.length_replicate, bigInsert_getLastD]
      rw [if_neg (show ¬ ((20001 : Nat) = 1) from by norm_num)]
      rfl
  · rw [applyDelta_big_eq_split, splitBig_delta]
    have hdrop : (List.replicate 20001 ([] : Line)).drop 19999
        = List.replicate 2 ([] : Line) := by
      rw [List.drop_replicate]
    rw [hdrop, show ((⟨0, 0⟩ : Pos).row + 19999 : Nat) = 19999 from by norm_num]
    have hspec := splitAndapplyLargeDelta_spec emptyDoc ⟨0, 0⟩ ⟨20000, 0⟩
      (List.replicate 20001 ([] : Line)) 20000 (by omega)
      (by rw [List.length_replicate]; omega)
      (by show (0 : Nat) < [([] : Line)].length; simp) (Nat.zero_le _)
    exact revert_mutated_big _ splitBig_lines (hspec.2.1.trans rfl)
      (hspec.2.2.1.trans rfl)

/-- Witness for the amended C1: a small well-formed single-line insert into
the two-line sample document, applied and immediately reverted. -/
theorem C1_inverse_law_witness :
    ((sampleDoc.applyDelta
        ⟨⟨0, 1⟩, ⟨0, 2⟩, DeltaAction.insert, [['x']]⟩ false).doc.revertDelta
      (sampleDoc.applyDelta
        ⟨⟨0, 1⟩, ⟨0, 2⟩, DeltaAction.insert, [['x']]⟩ false).delta).doc.getValue
      = sampleDoc.getValue :=
  C1_inverse_law sampleDoc ⟨⟨0, 1⟩, ⟨0, 2⟩, DeltaAction.insert, [['x']]⟩
    ⟨by decide, by decide, by decide, by decide, by decide⟩
    (fun h => by decide)

end Ace
